import Mathlib

/-!
Verification of the reconciliation pipeline of the calendar-events refresh
system: a shallow embedding in Lean 4 of the Stage 1 ticker-variant
expansion/merge and the Stage 2 processing resolvers
(`data_acquisition.py`, `data_processing.py`), together with theorems about
the spec's testable properties.

The file is organised as definitions first (translated from the Python
source), then helper lemmas, then one theorem per specification claim.
-/

namespace Aegis

/-! ## Generic list machinery

`foldPick lt l` models the Python idiom `l.sort(key, reverse=...); l[0]`:
it keeps the first element of `l` that is maximal for the strict order
`lt` (stable sorts keep the earliest element among ties, so the head of
the sorted list is the first maximum of the original list).

`firstSeenKeys f l` models iteration over a `defaultdict` built by
appending each element of `l` to the group of its key `f a`: dict keys in
Python appear in first-insertion order. -/

def foldPick (lt : α → α → Bool) (l : List α) : Option α :=
  l.foldl (fun acc e =>
    match acc with
    | none => some e
    | some b => if lt b e then some e else some b) none

def firstSeenKeys [DecidableEq κ] (f : α → κ) (l : List α) : List κ :=
  l.foldl (fun ks a => if f a ∈ ks then ks else ks ++ [f a]) []

/-- A `defaultdict(int)`-style counter as an association list in insertion
order: `bumpCount m k` is Python `m[k] += 1`. -/
def bumpCount (m : List (String × Nat)) (k : String) : List (String × Nat) :=
  match m with
  | [] => [(k, 1)]
  | (k', n) :: rest => if k' = k then (k', n + 1) :: rest else (k', n) :: bumpCount rest k

/-- The count stored for a key in a counter (0 when absent). -/
def countOf (m : List (String × Nat)) (k : String) : Nat :=
  ((m.filter (fun p => decide (p.1 = k))).map (·.2)).sum

/-- The sum of all counts in a counter. -/
def totalCount (m : List (String × Nat)) : Nat := (m.map (·.2)).sum

/-! ## Stage 1: ticker variant expansion (`data_acquisition.py`)

A raw provider event, as read from the FactSet response dictionaries: the
fields that `data_acquisition.py` touches, all carried as strings (a
missing field is the empty string, matching the falsy-string convention of
the Python code). -/

structure RawEvent where
  ticker : String
  event_type : String
  event_date_time : String
  description : String
  fiscal_year : String
  fiscal_period : String
  webcast_link : String
  contact_email : String
  contact_phone : String
  deriving DecidableEq

/-- Python `ticker.endswith("-CA")`. -/
def endsWithCA (t : String) : Bool := decide (['-', 'C', 'A'] <:+ t.data)

/-- Python `f"{ticker[:-3]}-US"`: swap the domestic suffix for the
foreign-market tag. -/
def altUS (t : String) : String :=
  String.mk (t.data.take (t.data.length - 3) ++ ['-', 'U', 'S'])

/-- One iteration of the `for ticker in tickers` loop of
`expand_canadian_tickers`: the accumulator is `(expanded, variant_map)`,
the variant map an association list where the most recent binding wins
(matching Python dict assignment). -/
def expandStep (acc : List String × List (String × String)) (ticker : String) :
    List String × List (String × String) :=
  let expanded := if ticker ∈ acc.1 then acc.1 else acc.1 ++ [ticker]
  let vmap := (ticker, ticker) :: acc.2
  if endsWithCA ticker then
    let usVariant := altUS ticker
    (if usVariant ∈ expanded then expanded else expanded ++ [usVariant],
     (usVariant, ticker) :: vmap)
  else
    (expanded, vmap)

/-- `expand_canadian_tickers(tickers)`: returns the expanded query list and
the variant-to-canonical map. -/
def expand_canadian_tickers (tickers : List String) :
    List String × List (String × String) :=
  tickers.foldl expandStep ([], [])

/-- Lookup in the variant map: the first (most recently inserted) binding
for the key, i.e. Python `variant_map.get(k)`. -/
def vmLookup (m : List (String × String)) (k : String) : Option String :=
  (m.find? (fun p => decide (p.1 = k))).map (·.2)

/-- Python `variant_map.get(original, original)`. -/
def vmGetD (m : List (String × String)) (k : String) : String :=
  (vmLookup m k).getD k

/-! ## Stage 1: variant merge resolver (`merge_variant_events`) -/

/-- Python substring test `pat in s`. -/
def strContains (s pat : String) : Bool := decide (pat.data <:+: s.data)

/-- Code-point lexicographic comparison of character lists: the order
Python uses to compare strings (and hence string members of sort-key
tuples). -/
def charListLt : List Char → List Char → Bool
  | _, [] => false
  | [], _ :: _ => true
  | a :: as, b :: bs =>
    if a.toNat < b.toNat then true
    else if b.toNat < a.toNat then false
    else charListLt as bs

/-- Python `a < b` on strings. -/
def strLt (a b : String) : Bool := charListLt a.data b.data

/-- Python `a <= b` on strings. -/
def strLe (a b : String) : Bool := !(strLt b a)

/-- Step 1 of `merge_variant_events` for one event: remap the ticker to its
canonical form, fix the description, and remember the original ticker (the
`_original_ticker` bookkeeping field, carried here as the second component
of a pair). -/
def remapEvent (variant_map : List (String × String)) (e : RawEvent) :
    RawEvent × String :=
  let original := e.ticker
  let canonical := vmGetD variant_map original
  let e := { e with ticker := canonical }
  if original ≠ canonical ∧ e.description ≠ "" ∧ strContains e.description original then
    ({ e with description := e.description.replace original canonical }, original)
  else
    (e, original)

/-- Step 2 grouping key of `merge_variant_events`: `(ticker, event_type,
fiscal_year, fiscal_period)` when fiscal data is present, else
`(ticker, event_type, "_date_", str(event_date_time)[:10])`. -/
def mergeKey (e : RawEvent) : String × String × String × String :=
  if e.fiscal_year ≠ "" ∧ e.fiscal_period ≠ "" then
    (e.ticker, e.event_type, e.fiscal_year, e.fiscal_period)
  else
    (e.ticker, e.event_type, "_date_",
      if e.event_date_time ≠ "" then e.event_date_time.take 10 else "")

/-- The completeness part of the merge score: webcast presence plus contact
presence (`has_webcast + has_contact`). -/
def completeness (e : RawEvent) : Nat :=
  (if e.webcast_link ≠ "" then 1 else 0) +
  (if e.contact_email ≠ "" ∨ e.contact_phone ≠ "" then 1 else 0)

/-- The `score` tuple of `merge_variant_events`:
`(is_canonical, has_webcast + has_contact, str(event_date_time))`. -/
def mergeScore (p : RawEvent × String) : Nat × Nat × String :=
  ((if p.1.ticker = p.2 then 1 else 0), completeness p.1, p.1.event_date_time)

/-- Lexicographic strict order on merge score tuples, i.e. the order Python
uses to compare the `score` tuples. -/
def scoreLt (a b : Nat × Nat × String) : Prop :=
  a.1 < b.1 ∨ (a.1 = b.1 ∧ (a.2.1 < b.2.1 ∨ (a.2.1 = b.2.1 ∧ strLt a.2.2 b.2.2 = true)))

instance (a b : Nat × Nat × String) : Decidable (scoreLt a b) :=
  inferInstanceAs (Decidable (_ ∨ _))

/-- Pick the best record of a duplicate group:
`group.sort(key=score, reverse=True); group[0]`, i.e. the first record in
iteration order among those with a lexicographically maximal score. -/
def pickBestMerge (g : List (RawEvent × String)) : Option (RawEvent × String) :=
  foldPick (fun b e => decide (scoreLt (mergeScore b) (mergeScore e))) g

/-- All events of `merge_variant_events` after the step-1 ticker remap. -/
def mergeRemapped (events : List RawEvent) (variant_map : List (String × String)) :
    List (RawEvent × String) :=
  events.map (remapEvent variant_map)

/-- The duplicate-group keys formed by `merge_variant_events`, in
first-insertion order. -/
def mergeGroupKeys (events : List RawEvent) (variant_map : List (String × String)) :
    List (String × String × String × String) :=
  firstSeenKeys (fun p => mergeKey p.1) (mergeRemapped events variant_map)

/-- The duplicate group of a key in `merge_variant_events`. -/
def mergeGroup (events : List RawEvent) (variant_map : List (String × String))
    (k : String × String × String × String) : List (RawEvent × String) :=
  (mergeRemapped events variant_map).filter (fun p => decide (mergeKey p.1 = k))

/-- `merge_variant_events(events, variant_map)`: remap tickers to canonical
form, group by the deduplication key, keep the best-scoring record of each
group, and drop the `_original_ticker` bookkeeping field. -/
def merge_variant_events (events : List RawEvent)
    (variant_map : List (String × String)) : List RawEvent :=
  if events.isEmpty then []
  else
    ((mergeGroupKeys events variant_map).filterMap
      (fun k => pickBestMerge (mergeGroup events variant_map k))).map (·.1)

/-- A record of a merge group strictly dominates another when it is
canonical-source while the other is not, has a strictly higher
completeness score, and has a lexically later instant string. -/
def strictlyDominates (p q : RawEvent × String) : Prop :=
  p.1.ticker = p.2 ∧ ¬(q.1.ticker = q.2) ∧
  completeness q.1 < completeness p.1 ∧
  strLt q.1.event_date_time p.1.event_date_time = true

/-! ## Calendar and timestamp arithmetic

A wall-clock datetime, second precision (the inputs carry no fractional
seconds). -/

structure DateTime where
  year : Nat
  month : Nat
  day : Nat
  hour : Nat
  minute : Nat
  second : Nat
  deriving DecidableEq

def isLeap (y : Nat) : Bool := decide ((y % 4 = 0 ∧ y % 100 ≠ 0) ∨ y % 400 = 0)

def daysInMonth (y m : Nat) : Nat :=
  if m = 2 then (if isLeap y then 29 else 28)
  else if m = 4 ∨ m = 6 ∨ m = 9 ∨ m = 11 then 30
  else 31

/-- Days since 0000-03-01 of the proleptic Gregorian calendar (valid for
year ≥ 1, which the timestamp format guarantees). -/
def daysFromCivil (y m d : Nat) : Nat :=
  let yy := if m ≤ 2 then y - 1 else y
  let era := yy / 400
  let yoe := yy % 400
  let mp := if 2 < m then m - 3 else m + 9
  let doy := (153 * mp + 2) / 5 + d - 1
  let doe := yoe * 365 + yoe / 4 - yoe / 100 + doy
  era * 146097 + doe

/-- Inverse of `daysFromCivil`: the (year, month, day) of a day count. -/
def civilFromDays (z : Nat) : Nat × Nat × Nat :=
  let era := z / 146097
  let doe := z % 146097
  let yoe := (doe - doe / 1460 + doe / 36524 - doe / 146096) / 365
  let y := yoe + era * 400
  let doy := doe - (365 * yoe + yoe / 4 - yoe / 100)
  let mp := (5 * doy + 2) / 153
  let d := doy - (153 * mp + 2) / 5 + 1
  let m := if mp < 10 then mp + 3 else mp - 9
  (if m ≤ 2 then y + 1 else y, m, d)

/-- Seconds since 0000-03-01T00:00:00 of the wall clock. -/
def dtToSecs (dt : DateTime) : Int :=
  (daysFromCivil dt.year dt.month dt.day : Int) * 86400 +
    dt.hour * 3600 + dt.minute * 60 + dt.second

def dtFromSecs (secs : Int) : DateTime :=
  let days := (secs.ediv 86400).toNat
  let rem := (secs.emod 86400).toNat
  let c := civilFromDays days
  { year := c.1, month := c.2.1, day := c.2.2,
    hour := rem / 3600, minute := rem % 3600 / 60, second := rem % 60 }

/-- Day of week with Sunday = 0 (0000-03-01 was a Wednesday, and the
400-year Gregorian cycle is an exact multiple of 7 days). -/
def dayOfWeek (y m d : Nat) : Nat := (daysFromCivil y m d + 3) % 7

/-- Day of month of the first Sunday of a month. -/
def firstSunday (y m : Nat) : Nat := 1 + (7 - dayOfWeek y m 1) % 7

/-- America/Toronto DST rule (post-2007): DST is in effect from the second
Sunday of March 02:00 EST (07:00 UTC) until the first Sunday of November
02:00 EDT (06:00 UTC). Decides DST for a UTC instant in seconds. -/
def torontoDSTatUTC (secs : Int) : Bool :=
  let dt := dtFromSecs secs
  let mar : Int := (daysFromCivil dt.year 3 (firstSunday dt.year 3 + 7) : Int) * 86400 + 7 * 3600
  let nov : Int := (daysFromCivil dt.year 11 (firstSunday dt.year 11) : Int) * 86400 + 6 * 3600
  decide (mar ≤ secs ∧ secs < nov)

/-- Whether a naive local midnight of the given calendar date falls in DST
when localized in America/Toronto (`pytz.localize` with its default
standard-time preference; midnight is never ambiguous in this zone since
the transitions happen at 02:00). -/
def torontoMidnightDST (y m d : Nat) : Bool :=
  let idx := daysFromCivil y m d
  decide (daysFromCivil y 3 (firstSunday y 3 + 7) < idx ∧
          idx ≤ daysFromCivil y 11 (firstSunday y 11))

def pad2 (n : Nat) : String := if n < 10 then "0" ++ toString n else toString n

def pad4 (n : Nat) : String :=
  if n < 10 then "000" ++ toString n
  else if n < 100 then "00" ++ toString n
  else if n < 1000 then "0" ++ toString n
  else toString n

/-- `dt.strftime("%Y-%m-%d")`. -/
def formatDate (dt : DateTime) : String :=
  pad4 dt.year ++ "-" ++ pad2 dt.month ++ "-" ++ pad2 dt.day

/-- A UTC-offset suffix `+HH:MM` / `-HH:MM` (offset in minutes). -/
def offsetSuffix (off : Int) : String :=
  (if off < 0 then "-" else "+") ++ pad2 (off.natAbs / 60) ++ ":" ++ pad2 (off.natAbs % 60)

/-- `dt.isoformat()` of an aware datetime with the given offset in
minutes. -/
def isoformat (dt : DateTime) (off : Int) : String :=
  formatDate dt ++ "T" ++ pad2 dt.hour ++ ":" ++ pad2 dt.minute ++ ":" ++
    pad2 dt.second ++ offsetSuffix off

/-- `dt.strftime("%H:%M {tz}")`. -/
def timeLabel (dt : DateTime) (abbr : String) : String :=
  pad2 dt.hour ++ ":" ++ pad2 dt.minute ++ " " ++ abbr

/-! ## Timestamp parsing

Model of `dateutil.parser.parse` restricted to the ISO-8601 shapes the
provider emits: `YYYY-MM-DD`, optionally followed by `T` or a space and
`HH:MM[:SS]`, optionally followed by `Z` or a `±HH:MM` offset. The result
is the wall-clock datetime together with the parsed offset in minutes
(`none` for a naive timestamp). Any other shape is a parse failure, which
Python surfaces as the exception the caller catches and this model as
`none`. -/

def digitVal (c : Char) : Option Nat :=
  if c.isDigit then some (c.toNat - 48) else none

def parseDigits : Nat → List Char → Nat → Option (Nat × List Char)
  | 0, cs, acc => some (acc, cs)
  | _ + 1, [], _ => none
  | n + 1, c :: cs, acc =>
    match digitVal c with
    | some d => parseDigits n cs (acc * 10 + d)
    | none => none

def expectChar (c : Char) : List Char → Option (List Char)
  | x :: xs => if x = c then some xs else none
  | [] => none

/-- Parse the trailing offset part: nothing (naive), `Z`, or `±HH:MM`. -/
def parseOffset (cs : List Char) : Option (Option Int) :=
  match cs with
  | [] => some none
  | ['Z'] => some (some 0)
  | c :: rest =>
    if c = '+' ∨ c = '-' then
      match parseDigits 2 rest 0 with
      | some (h, ':' :: rest2) =>
        match parseDigits 2 rest2 0 with
        | some (mi, []) =>
          if h ≤ 23 ∧ mi ≤ 59 then
            some (some ((if c = '-' then -1 else 1) * (h * 60 + mi : Nat)))
          else none
        | _ => none
      | _ => none
    else none

/-- Parse the optional `[:SS]` seconds and then the offset. -/
def parseSecondsAndOffset (cs : List Char) : Option (Nat × Option Int) :=
  match cs with
  | ':' :: rest =>
    match parseDigits 2 rest 0 with
    | some (s, rest2) =>
      if s ≤ 59 then (parseOffset rest2).map (fun o => (s, o)) else none
    | none => none
  | _ => (parseOffset cs).map (fun o => (0, o))

def parseTimestamp (str : String) : Option (DateTime × Option Int) :=
  match parseDigits 4 str.data 0 with
  | none => none
  | some (y, cs) =>
    match expectChar '-' cs with
    | none => none
    | some cs =>
      match parseDigits 2 cs 0 with
      | none => none
      | some (mo, cs) =>
        match expectChar '-' cs with
        | none => none
        | some cs =>
          match parseDigits 2 cs 0 with
          | none => none
          | some (d, cs) =>
            if 1 ≤ y ∧ 1 ≤ mo ∧ mo ≤ 12 ∧ 1 ≤ d ∧ d ≤ daysInMonth y mo then
              match cs with
              | [] => some (⟨y, mo, d, 0, 0, 0⟩, none)
              | c :: rest =>
                if c = 'T' ∨ c = ' ' then
                  match parseDigits 2 rest 0 with
                  | none => none
                  | some (h, cs) =>
                    match expectChar ':' cs with
                    | none => none
                    | some cs =>
                      match parseDigits 2 cs 0 with
                      | none => none
                      | some (mi, cs) =>
                        if h ≤ 23 ∧ mi ≤ 59 then
                          match parseSecondsAndOffset cs with
                          | some (s, off) => some (⟨y, mo, d, h, mi, s⟩, off)
                          | none => none
                        else none
                else none
            else none

/-- The fixed local zone of the pipeline, `LOCAL_TIMEZONE = "America/Toronto"`. -/
def LOCAL_TIMEZONE : String := "America/Toronto"

/-- `convert_timezone(utc_str, time_unconfirmed)` of `data_processing.py`:
convert a UTC datetime string to `(utc_iso, local_iso, date, time_label)`,
all empty on a null or unparseable input. When the time is unconfirmed the
local date is anchored to the parsed calendar date and a local midnight is
fabricated for it; otherwise the instant is converted into
America/Toronto. -/
def convert_timezone (utc_str : String) (time_unconfirmed : Bool) :
    String × String × String × String :=
  if utc_str = "" then ("", "", "", "")
  else
    match parseTimestamp utc_str with
    | none => ("", "", "", "")
    | some (dt, tzinfo) =>
      let offset : Int := tzinfo.getD 0
      if time_unconfirmed then
        let date_str := formatDate dt
        let dst := torontoMidnightDST dt.year dt.month dt.day
        let localOff : Int := if dst then -240 else -300
        let abbr := if dst then "EDT" else "EST"
        let dtLocal : DateTime := ⟨dt.year, dt.month, dt.day, 0, 0, 0⟩
        (isoformat dt offset, isoformat dtLocal localOff, date_str, "00:00 " ++ abbr)
      else
        let utcSecs := dtToSecs dt - offset * 60
        let dst := torontoDSTatUTC utcSecs
        let localOff : Int := if dst then -240 else -300
        let dtLocal := dtFromSecs (utcSecs + localOff * 60)
        let abbr := if dst then "EDT" else "EST"
        (isoformat dt offset, isoformat dtLocal localOff, formatDate dtLocal,
         timeLabel dtLocal abbr)

/-! ## Stage 2: record transformer (`data_processing.py`) -/

/-- Institution metadata entry from `monitored_institutions.yaml`
(`{name, id, type}`, each possibly absent). -/
structure InstInfo where
  name : Option String
  id : Option String
  type' : Option String
  deriving DecidableEq

/-- A processed event in the output schema of Stage 2, plus the internal
`_last_modified_date` field kept for the earnings dedup (modelled here as
the field `last_modified_date`). -/
structure ProcEvent where
  event_id : String
  ticker : String
  institution_name : String
  institution_id : String
  institution_type : String
  event_type : String
  event_headline : String
  event_date_time_utc : String
  event_date_time_local : String
  event_date : String
  event_time_local : String
  webcast_link : String
  contact_info : String
  fiscal_year : String
  fiscal_period : String
  data_fetched_timestamp : String
  last_modified_date : String
  deriving DecidableEq

/-- `CANADIAN_BANK_BASES`. -/
def CANADIAN_BANK_BASES : List String := ["RY", "TD", "BMO", "BNS", "CM", "NA"]

/-- `INCLUDED_EVENT_TYPES`. -/
def INCLUDED_EVENT_TYPES : List String :=
  ["Earnings", "SalesRevenue", "Dividend", "Conference", "ShareholdersMeeting",
   "AnalystsInvestorsMeeting", "SpecialSituation"]

/-- `EXCLUDED_EVENT_TYPES`. -/
def EXCLUDED_EVENT_TYPES : List String :=
  ["ProjectedEarningsRelease", "ConfirmedEarningsRelease"]

/-- `DEDUP_RULES` (empty in the source configuration). -/
def DEDUP_RULES : List (String × List String) := []

/-- `RENAME_RULES`. -/
def RENAME_RULES : List (String × String) :=
  [("SalesRevenueRelease", "SalesRevenue"), ("SalesRevenueCall", "SalesRevenue")]

/-- Python `s.strip()`: drop leading and trailing whitespace. -/
def pyStrip (s : String) : String :=
  String.mk (((s.data.dropWhile Char.isWhitespace).reverse.dropWhile
    Char.isWhitespace).reverse)

/-- `normalize_canadian_ticker(ticker)`: strip, then rewrite a
`{base}-US` form of a known Canadian bank to `{base}-CA`. -/
def normalize_canadian_ticker (ticker : String) : String :=
  let t := pyStrip ticker
  match CANADIAN_BANK_BASES.find? (fun base => decide (t = base ++ "-US")) with
  | some base => base ++ "-CA"
  | none => t

/-- `build_contact_info(event)`: join the present contact fields with
`" | "`. -/
def build_contact_info (e : RawEvent) (contact_name : String) : String :=
  String.intercalate " | "
    ((if contact_name ≠ "" then ["Contact: " ++ contact_name] else []) ++
     (if e.contact_phone ≠ "" then ["Phone: " ++ e.contact_phone] else []) ++
     (if e.contact_email ≠ "" then ["Email: " ++ e.contact_email] else []))

/-- `normalize_fiscal_year(value)`: convert fiscal year `0` to blank. -/
def normalize_fiscal_year (value : String) : String :=
  if value = "0" ∨ value = "0.0" then "" else value

/-- Raw fields consumed by Stage 2 that are not part of the Stage 1
`RawEvent` structure above. -/
structure RawStage2Fields where
  event_id : String
  contact_name : String
  market_time_code : String
  last_modified_date : String
  deriving DecidableEq

/-- `transform_event(raw, institutions, timestamp)`: normalize the ticker,
fix the description, look up institution metadata, convert the timestamp,
mark unconfirmed times, and assemble the output record. -/
def transform_event (raw : RawEvent) (raw2 : RawStage2Fields)
    (institutions : List (String × InstInfo)) (timestamp : String) : ProcEvent :=
  let raw_ticker := raw.ticker
  let ticker := normalize_canadian_ticker raw_ticker
  let description :=
    if raw_ticker ≠ ticker ∧ strContains raw.description raw_ticker then
      raw.description.replace raw_ticker ticker
    else raw.description
  let inst := (institutions.find? (fun p => decide (p.1 = ticker))).map (·.2)
  let time_unconfirmed := raw2.market_time_code = "Unspecified"
  let tz := convert_timezone raw.event_date_time time_unconfirmed
  let headline := if time_unconfirmed then description ++ " (Time TBD)" else description
  { event_id := raw2.event_id
    ticker := ticker
    institution_name := ((inst.map (·.name)).getD none).getD "Unknown"
    institution_id := ((inst.map (·.id)).getD none).getD ""
    institution_type := ((inst.map (·.type')).getD none).getD "Unknown"
    event_type := raw.event_type
    event_headline := headline
    event_date_time_utc := tz.1
    event_date_time_local := tz.2.1
    event_date := tz.2.2.1
    event_time_local := tz.2.2.2
    webcast_link := raw.webcast_link
    contact_info := build_contact_info raw raw2.contact_name
    fiscal_year := normalize_fiscal_year raw.fiscal_year
    fiscal_period := raw.fiscal_period
    data_fetched_timestamp := timestamp
    last_modified_date := raw2.last_modified_date }

/-! ## Stage 2: type filter -/

/-- `get_allowed_types()`: included types plus dedup sources plus rename
sources, minus the explicitly excluded types. -/
def get_allowed_types : List String :=
  (INCLUDED_EVENT_TYPES ++ (DEDUP_RULES.map (·.2)).flatten ++ RENAME_RULES.map (·.1)).filter
    (fun t => decide (t ∉ EXCLUDED_EVENT_TYPES))

/-- One iteration of the `for event in events` loop of `filter_events`:
the accumulator is `(filtered, explicitly_excluded_counts,
excluded_counts)`. -/
def filterStep (acc : List ProcEvent × List (String × Nat) × List (String × Nat))
    (e : ProcEvent) : List ProcEvent × List (String × Nat) × List (String × Nat) :=
  if e.event_type ∈ EXCLUDED_EVENT_TYPES then
    (acc.1, bumpCount acc.2.1 e.event_type, acc.2.2)
  else if e.event_type ∈ get_allowed_types then
    (acc.1 ++ [e], acc.2.1, acc.2.2)
  else
    (acc.1, acc.2.1, bumpCount acc.2.2 e.event_type)

/-- `filter_events(events)`: keep allowed event types; count drops of
explicitly excluded types and of unknown types in two separate tallies
(the logged `explicitly_excluded_counts` and `excluded_counts`). -/
def filter_events (events : List ProcEvent) :
    List ProcEvent × List (String × Nat) × List (String × Nat) :=
  events.foldl filterStep ([], [], [])

/-! ## Stage 2: same-instant resolver (`dedupe_same_datetime`)

The priority list is the module configuration `DATETIME_DEDUP_PRIORITY`
(empty in the source configuration); it is passed explicitly here so the
resolver is a pure function of records plus configuration. -/

/-- The priority index of an event type: position in the priority list
(last occurrence wins, like the Python dict comprehension
`{t: i for i, t in enumerate(...)}`), defaulting to 999. -/
def prioIndex (priority : List String) (t : String) : Nat :=
  (priority.enum.foldl (fun acc p => if p.2 = t then some p.1 else acc) none).getD 999

/-- The `(ticker, event_date_time_utc)` grouping key. -/
def dtKey (e : ProcEvent) : String × String := (e.ticker, e.event_date_time_utc)

/-- The events whose category is on the priority list. -/
def listedEvents (priority : List String) (events : List ProcEvent) : List ProcEvent :=
  events.filter (fun e => decide (e.event_type ∈ priority))

/-- The `(ticker, datetime)` group keys, in first-insertion order. -/
def dtKeys (priority : List String) (events : List ProcEvent) : List (String × String) :=
  firstSeenKeys dtKey (listedEvents priority events)

/-- The group of listed events sharing a `(ticker, datetime)` key. -/
def dtGroup (priority : List String) (events : List ProcEvent) (k : String × String) :
    List ProcEvent :=
  (listedEvents priority events).filter (fun e => decide (dtKey e = k))

/-- `group.sort(key=priority); group[0]`: the first record whose category
has the minimal priority index. -/
def pickMinPrio (priority : List String) (g : List ProcEvent) : Option ProcEvent :=
  foldPick (fun b e =>
    decide (prioIndex priority e.event_type < prioIndex priority b.event_type)) g

/-- `dedupe_same_datetime(events)`: for identical `(ticker, datetime)`
among listed categories keep only the highest-priority record; unlisted
categories pass through; a no-op when no priority list is configured. -/
def dedupe_same_datetime (priority : List String) (events : List ProcEvent) :
    List ProcEvent :=
  if priority.isEmpty then events
  else
    ((dtKeys priority events).filterMap
      (fun k => pickMinPrio priority (dtGroup priority events k))) ++
    events.filter (fun e => decide (e.event_type ∉ priority))

/-! ## Stage 2: fiscal-period resolver (`dedupe_earnings_by_fiscal_period`) -/

/-- `_get_event_month(event)`: the `YYYY-MM` prefix of the event date, or
empty. -/
def getEventMonth (e : ProcEvent) : String :=
  if e.event_date.length ≥ 7 then e.event_date.take 7 else ""

/-- The distinct non-empty months represented in a group
(`months = set(...); months.discard("")`). -/
def distinctMonths (group : List ProcEvent) : List String :=
  ((group.map getEventMonth).filter (fun m => decide (m ≠ ""))).eraseDups

/-- `_pick_by_last_modified(group)`: the first record among those with the
lexically greatest `_last_modified_date` (stable descending sort, then
head). -/
def pick_by_last_modified (group : List ProcEvent) : Option ProcEvent :=
  foldPick (fun b e => strLt b.last_modified_date e.last_modified_date) group

/-- A nested `defaultdict(lambda: defaultdict(int))` update. -/
def bumpNested (idx : List ((String × String) × List (String × Nat)))
    (k : String × String) (month : String) :
    List ((String × String) × List (String × Nat)) :=
  match idx with
  | [] => [(k, [(month, 1)])]
  | (k', m) :: rest =>
    if k' = k then (k', bumpCount m month) :: rest else (k', m) :: bumpNested rest k month

/-- The peer index of the resolver: for each `(fiscal_year, fiscal_period)`
count events per month, over events with all three fields usable. -/
def buildPeerIndex (events : List ProcEvent) :
    List ((String × String) × List (String × Nat)) :=
  events.foldl (fun idx e =>
    if e.fiscal_year ≠ "" ∧ e.fiscal_period ≠ "" ∧ getEventMonth e ≠ "" then
      bumpNested idx (e.fiscal_year, e.fiscal_period) (getEventMonth e)
    else idx) []

/-- Python `max(peer_months, key=peer_months.get)`: the first key with a
maximal count, in insertion order. -/
def maxByCount (m : List (String × Nat)) : Option String :=
  (foldPick (fun b e => decide (b.2 < e.2)) m).map (·.1)

/-- `_pick_by_peer_comparison(group, fiscal_year, fiscal_period,
peer_index)`: find the consensus month among peers and the first record of
the group falling in it; `none` when there is no peer data or no match. -/
def pickByPeerComparison (group : List ProcEvent) (fiscal_year fiscal_period : String)
    (peer_index : List ((String × String) × List (String × Nat))) : Option ProcEvent :=
  let peer_months :=
    ((peer_index.find? (fun p => decide (p.1 = (fiscal_year, fiscal_period)))).map (·.2)).getD []
  if peer_months.isEmpty then none
  else
    match maxByCount peer_months with
    | none => none
    | some consensus => group.find? (fun e => decide (getEventMonth e = consensus))

/-- The Earnings events of the input. -/
def earningsOf (events : List ProcEvent) : List ProcEvent :=
  events.filter (fun e => decide (e.event_type = "Earnings"))

/-- The Earnings events carrying both fiscal fields. -/
def withFiscalOf (events : List ProcEvent) : List ProcEvent :=
  (earningsOf events).filter (fun e => decide (e.fiscal_year ≠ "" ∧ e.fiscal_period ≠ ""))

/-- The `(ticker, fiscal_year, fiscal_period)` grouping key. -/
def earnKey (e : ProcEvent) : String × String × String :=
  (e.ticker, e.fiscal_year, e.fiscal_period)

/-- The fiscal-period group keys, in first-insertion order. -/
def earnKeys (events : List ProcEvent) : List (String × String × String) :=
  firstSeenKeys earnKey (withFiscalOf events)

/-- The fiscal-period duplicate group of a key. -/
def earnGroup (events : List ProcEvent) (k : String × String × String) : List ProcEvent :=
  (withFiscalOf events).filter (fun e => decide (earnKey e = k))

/-- The per-group resolution of `dedupe_earnings_by_fiscal_period`: a
single-month (or dateless) group goes to `_pick_by_last_modified`; a
multi-month group tries peer comparison against the other tickers'
earnings, falling back to `_pick_by_last_modified` when inconclusive. -/
def pickEarningsWinner (earnings : List ProcEvent) (k : String × String × String)
    (group : List ProcEvent) : Option ProcEvent :=
  match group with
  | [] => none
  | [e] => some e
  | _ =>
    if (distinctMonths group).length ≤ 1 then pick_by_last_modified group
    else
      match pickByPeerComparison group k.2.1 k.2.2
        (buildPeerIndex (earnings.filter (fun e => decide (e.ticker ≠ k.1)))) with
      | some w => some w
      | none => pick_by_last_modified group

/-- `dedupe_earnings_by_fiscal_period(events)`: group Earnings events with
fiscal data by `(ticker, fiscal_year, fiscal_period)` and keep one record
per group; Earnings without fiscal data and all other categories pass
through. -/
def dedupe_earnings_by_fiscal_period (events : List ProcEvent) : List ProcEvent :=
  if (earningsOf events).isEmpty then events
  else
    ((earnKeys events).filterMap
      (fun k => pickEarningsWinner (earningsOf events) k (earnGroup events k))) ++
    (events.filter (fun e => decide (e.event_type ≠ "Earnings")) ++
     (earningsOf events).filter (fun e => decide (e.fiscal_year = "" ∨ e.fiscal_period = "")))

/-! ## Stage 2: generic consolidator key -/

/-- `get_dedup_key(event, target)` of `consolidate_events`: fiscal key when
fiscal data is present, else the calendar-date key. -/
def get_dedup_key (e : ProcEvent) (target : String) : String × String × String × String :=
  if e.fiscal_year ≠ "" ∧ e.fiscal_period ≠ "" then
    (target, e.ticker, e.fiscal_year, e.fiscal_period)
  else
    (target, e.ticker, "date", e.event_date)

/-! ## Invariant statements and concrete scenario records -/

/-- The invariant maintained by the `expand_canadian_tickers` loop over the
already-processed tickers `seen`: every processed ticker maps to itself,
every processed `-CA` ticker has its `-US` alternate in the expansion
mapping back to it, and the expansion has no duplicates. -/
def ExpandInv (seen : List String) (acc : List String × List (String × String)) : Prop :=
  (∀ t ∈ seen, vmLookup acc.2 t = some t) ∧
  (∀ t ∈ seen, endsWithCA t = true →
    altUS t ∈ acc.1 ∧ vmLookup acc.2 (altUS t) = some t) ∧
  acc.1.Nodup

/-- The Variant Merge Resolver scenario of the spec: the `BMO-CA` record of
the pair, without a webcast URL. -/
def bmoCA : RawEvent :=
  { ticker := "BMO-CA", event_type := "Earnings",
    event_date_time := "2024-05-29T13:00:00+00:00", description := "",
    fiscal_year := "2024", fiscal_period := "Q1",
    webcast_link := "", contact_email := "", contact_phone := "" }

/-- The `BMO-US` record of the scenario, carrying a webcast URL. -/
def bmoUS : RawEvent :=
  { ticker := "BMO-US", event_type := "Earnings",
    event_date_time := "2024-05-29T13:00:00+00:00", description := "",
    fiscal_year := "2024", fiscal_period := "Q1",
    webcast_link := "https://webcast.example.com/bmo-q1",
    contact_email := "", contact_phone := "" }

/-- The variant map used in the scenario, as built by
`expand_canadian_tickers` for the canonical list `["BMO-CA"]`. -/
def vmapBMO : List (String × String) := (expand_canadian_tickers ["BMO-CA"]).2

/-- A scenario record with only the fields the resolvers inspect set; the
remaining output fields are empty strings. -/
def mkScenarioEvent (ticker etype utc date fy fp lastmod : String) : ProcEvent :=
  { event_id := "", ticker := ticker, institution_name := "", institution_id := "",
    institution_type := "", event_type := etype, event_headline := "",
    event_date_time_utc := utc, event_date_time_local := "", event_date := date,
    event_time_local := "", webcast_link := "", contact_info := "",
    fiscal_year := fy, fiscal_period := fp, data_fetched_timestamp := "",
    last_modified_date := lastmod }

/-- The Same-Instant Resolver scenario priority list. -/
def siPriority : List String :=
  ["Earnings", "ConfirmedEarningsRelease", "ProjectedEarningsRelease"]

/-- Scenario record: the Earnings call. -/
def siEarningsRec : ProcEvent :=
  mkScenarioEvent "BMO-CA" "Earnings" "2024-05-29T11:00:00+00:00"
    "2024-05-29" "2024" "Q1" ""

/-- Scenario record: the confirmed release at the same instant. -/
def siConfirmedRec : ProcEvent :=
  mkScenarioEvent "BMO-CA" "ConfirmedEarningsRelease" "2024-05-29T11:00:00+00:00"
    "2024-05-29" "2024" "Q1" ""

/-- Scenario record: the projected release at the same instant. -/
def siProjectedRec : ProcEvent :=
  mkScenarioEvent "BMO-CA" "ProjectedEarningsRelease" "2024-05-29T11:00:00+00:00"
    "2024-05-29" "2024" "Q1" ""

/-- The Same-Instant Resolver scenario input. -/
def siEvents : List ProcEvent := [siEarningsRec, siConfirmedRec, siProjectedRec]

/-- Fiscal-period scenario record: first fetch of the Q1 earnings call. -/
def fpRecA : ProcEvent :=
  mkScenarioEvent "BMO-CA" "Earnings" "2024-05-29T11:00:00+00:00"
    "2024-05-29" "2024" "Q1" "2024-05-01T00:00:00Z"

/-- Fiscal-period scenario record: a later-modified duplicate in the same
month. -/
def fpRecB : ProcEvent :=
  mkScenarioEvent "BMO-CA" "Earnings" "2024-05-30T11:00:00+00:00"
    "2024-05-30" "2024" "Q1" "2024-05-02T00:00:00Z"

/-- Fiscal-period scenario record: a non-Earnings record that must pass
through the resolver untouched. -/
def fpOtherRec : ProcEvent :=
  mkScenarioEvent "BMO-CA" "Dividend" "2024-06-01T00:00:00+00:00"
    "2024-06-01" "" "" ""

/-- The fiscal-period resolver scenario input. -/
def fpEvents : List ProcEvent := [fpRecA, fpRecB, fpOtherRec]

/-- A raw record carrying the literal fiscal-year value `"0"`. -/
def rawZeroFY : RawEvent :=
  { ticker := "BMO-CA", event_type := "Earnings", event_date_time := "",
    description := "Q1 earnings", fiscal_year := "0", fiscal_period := "Q1",
    webcast_link := "", contact_email := "", contact_phone := "" }

/-- The Stage 2 side fields of the zero-fiscal-year scenario record. -/
def rawZeroFY2 : RawStage2Fields :=
  { event_id := "E1", contact_name := "", market_time_code := "",
    last_modified_date := "" }

/-! ## Helper lemmas: fold-pick and grouping -/

theorem foldPick_go_mem (lt : α → α → Bool) :
    ∀ (l : List α) (acc : Option α) (w : α),
      l.foldl (fun acc e =>
        match acc with
        | none => some e
        | some b => if lt b e then some e else some b) acc = some w →
      acc = some w ∨ w ∈ l := by
  intro l
  induction l with
  | nil => intro acc w h; exact Or.inl h
  | cons e l ih =>
    intro acc w h
    simp only [List.foldl_cons] at h
    rcases ih _ _ h with h' | h'
    · match acc with
      | none =>
        simp only at h'
        exact Or.inr (by simp [← Option.some.inj h'])
      | some b =>
        simp only at h'
        by_cases hbe : lt b e
        · simp [hbe] at h'
          exact Or.inr (by simp [← h'])
        · simp [hbe] at h'
          exact Or.inl (by simp [h'])
    · exact Or.inr (List.mem_cons_of_mem _ h')

theorem foldPick_mem (lt : α → α → Bool) (l : List α) (w : α)
    (h : foldPick lt l = some w) : w ∈ l := by
  rcases foldPick_go_mem lt l none w h with h' | h'
  · exact absurd h' (by simp)
  · exact h'

theorem foldPick_go_isSome (lt : α → α → Bool) :
    ∀ (l : List α) (b : α),
      (l.foldl (fun acc e =>
        match acc with
        | none => some e
        | some b => if lt b e then some e else some b) (some b)).isSome := by
  intro l
  induction l with
  | nil => intro b; rfl
  | cons e l ih =>
    intro b
    simp only [List.foldl_cons]
    by_cases hbe : lt b e <;> simp [hbe, ih]

theorem foldPick_isSome (lt : α → α → Bool) (l : List α) (h : l ≠ []) :
    (foldPick lt l).isSome := by
  match l with
  | [] => exact absurd rfl h
  | e :: l => exact foldPick_go_isSome lt l e

theorem foldPick_go_max (lt : α → α → Bool)
    (hirr : ∀ a, lt a a = false)
    (htrans : ∀ a b c, lt a b = true → lt b c = true → lt a c = true)
    (hneg : ∀ a b c, lt a b = false → lt b c = false → lt a c = false) :
    ∀ (l : List α) (b w : α),
      l.foldl (fun acc e =>
        match acc with
        | none => some e
        | some b => if lt b e then some e else some b) (some b) = some w →
      lt w b = false ∧ ∀ e ∈ l, lt w e = false := by
  intro l
  induction l with
  | nil =>
    intro b w h
    simp only [List.foldl_nil, Option.some.injEq] at h
    subst h
    exact ⟨hirr _, by simp⟩
  | cons e l ih =>
    intro b w h
    simp only [List.foldl_cons] at h
    by_cases hbe : lt b e
    · simp only [hbe, if_true] at h
      obtain ⟨hwb, hrest⟩ := ih e w h
      have hwbF : lt w b = false := by
        by_contra hc
        have hwb' : lt w b = true := by
          cases hx : lt w b
          · exact absurd hx hc
          · rfl
        have := htrans w b e hwb' hbe
        rw [this] at hwb
        exact Bool.noConfusion hwb
      refine ⟨hwbF, ?_⟩
      intro x hx
      rcases List.mem_cons.mp hx with hx | hx
      · subst hx; exact hwb
      · exact hrest x hx
    · simp only [hbe, if_false] at h
      have hbeF : lt b e = false := by
        cases hx : lt b e
        · rfl
        · exact absurd hx hbe
      obtain ⟨hwb, hrest⟩ := ih b w h
      refine ⟨hwb, ?_⟩
      intro x hx
      rcases List.mem_cons.mp hx with hx | hx
      · subst hx; exact hneg w b x hwb hbeF
      · exact hrest x hx

theorem foldPick_max (lt : α → α → Bool)
    (hirr : ∀ a, lt a a = false)
    (htrans : ∀ a b c, lt a b = true → lt b c = true → lt a c = true)
    (hneg : ∀ a b c, lt a b = false → lt b c = false → lt a c = false)
    (l : List α) (w : α) (h : foldPick lt l = some w) :
    ∀ e ∈ l, lt w e = false := by
  match l with
  | [] => intro e he; exact absurd he (by simp)
  | b :: l =>
    intro e he
    obtain ⟨hwb, hrest⟩ := foldPick_go_max lt hirr htrans hneg l b w h
    rcases List.mem_cons.mp he with he | he
    · subst he; exact hwb
    · exact hrest e he

theorem firstSeenKeys_go_mem [DecidableEq κ] (f : α → κ) :
    ∀ (l : List α) (ks : List κ) (k : κ),
      k ∈ l.foldl (fun ks a => if f a ∈ ks then ks else ks ++ [f a]) ks ↔
      k ∈ ks ∨ ∃ a ∈ l, f a = k := by
  intro l
  induction l with
  | nil => intro ks k; simp
  | cons a l ih =>
    intro ks k
    simp only [List.foldl_cons]
    by_cases hmem : f a ∈ ks
    · rw [if_pos hmem, ih]
      constructor
      · rintro (h | h)
        · exact Or.inl h
        · exact Or.inr (by rcases h with ⟨x, hx, hfx⟩; exact ⟨x, List.mem_cons_of_mem _ hx, hfx⟩)
      · rintro (h | ⟨x, hx, hfx⟩)
        · exact Or.inl h
        · rcases List.mem_cons.mp hx with hx | hx
          · subst hx; exact Or.inl (hfx ▸ hmem)
          · exact Or.inr ⟨x, hx, hfx⟩
    · rw [if_neg hmem, ih]
      constructor
      · rintro (h | h)
        · rcases List.mem_append.mp h with h | h
          · exact Or.inl h
          · simp only [List.mem_singleton] at h
            exact Or.inr ⟨a, List.mem_cons_self a l, h.symm⟩
        · exact Or.inr (by rcases h with ⟨x, hx, hfx⟩; exact ⟨x, List.mem_cons_of_mem _ hx, hfx⟩)
      · rintro (h | ⟨x, hx, hfx⟩)
        · exact Or.inl (List.mem_append.mpr (Or.inl h))
        · rcases List.mem_cons.mp hx with hx | hx
          · subst hx
            exact Or.inl (List.mem_append.mpr (Or.inr (by simp [hfx])))
          · exact Or.inr ⟨x, hx, hfx⟩

theorem mem_firstSeenKeys [DecidableEq κ] (f : α → κ) (l : List α) (k : κ) :
    k ∈ firstSeenKeys f l ↔ ∃ a ∈ l, f a = k := by
  rw [firstSeenKeys, firstSeenKeys_go_mem]
  simp

theorem firstSeenKeys_go_nodup [DecidableEq κ] (f : α → κ) :
    ∀ (l : List α) (ks : List κ), ks.Nodup →
      (l.foldl (fun ks a => if f a ∈ ks then ks else ks ++ [f a]) ks).Nodup := by
  intro l
  induction l with
  | nil => intro ks h; exact h
  | cons a l ih =>
    intro ks h
    simp only [List.foldl_cons]
    by_cases hmem : f a ∈ ks
    · rw [if_pos hmem]; exact ih ks h
    · rw [if_neg hmem]
      exact ih _ (by simp [List.nodup_append, h, hmem])

theorem nodup_firstSeenKeys [DecidableEq κ] (f : α → κ) (l : List α) :
    (firstSeenKeys f l).Nodup :=
  firstSeenKeys_go_nodup f l [] List.nodup_nil

/-- For a family of groups indexed by distinct keys, filtering the list of
per-group winners by a predicate that singles out the key `k0` leaves
exactly the winner of the `k0` group (or nothing when `k0` is not among
the keys). -/
theorem filterMap_groups_filter (pickAt : κ → Option α)
    (P : α → Bool) (k0 : κ) [DecidableEq κ] :
    ∀ (keys : List κ), keys.Nodup →
      (∀ k ∈ keys, ∀ w, pickAt k = some w → (P w = true ↔ k = k0)) →
      (keys.filterMap pickAt).filter P
        = if k0 ∈ keys then (pickAt k0).toList else [] := by
  intro keys
  induction keys with
  | nil => intro _ _; simp
  | cons k ks ih =>
    intro hnd hP
    have hndk : k ∉ ks := (List.nodup_cons.mp hnd).1
    have hnds : ks.Nodup := (List.nodup_cons.mp hnd).2
    have hPks : ∀ k' ∈ ks, ∀ w,
        pickAt k' = some w → (P w = true ↔ k' = k0) :=
      fun k' hk' => hP k' (List.mem_cons_of_mem _ hk')
    rcases hw : pickAt k with _ | w
    · simp only [List.filterMap_cons, hw]
      rw [ih hnds hPks]
      by_cases hk0 : k = k0
      · subst hk0
        simp [hndk, hw]
      · simp only [List.mem_cons]
        by_cases hk0s : k0 ∈ ks
        · simp [hk0s, Ne.symm hk0]
        · simp [hk0s, Ne.symm hk0]
    · simp only [List.filterMap_cons, hw]
      have hPw := hP k (List.mem_cons_self k ks) w hw
      by_cases hk0 : k = k0
      · subst hk0
        have : P w = true := hPw.mpr rfl
        simp only [List.filter_cons, this, if_true]
        rw [ih hnds hPks, if_neg hndk]
        simp [hw]
      · have : P w = false := by
          cases hx : P w
          · rfl
          · exact absurd (hPw.mp hx) hk0
        simp only [List.filter_cons, this]
        rw [ih hnds hPks]
        simp only [List.mem_cons]
        by_cases hk0s : k0 ∈ ks
        · simp [hk0s, Ne.symm hk0]
        · simp [hk0s, Ne.symm hk0]

theorem charListLt_nil_right (l : List Char) : charListLt l [] = false := by
  cases l <;> rfl

theorem charListLt_cons_iff {a0 b0 : Char} {as bs : List Char} :
    charListLt (a0 :: as) (b0 :: bs) = true ↔
    a0.toNat < b0.toNat ∨ (a0.toNat = b0.toNat ∧ charListLt as bs = true) := by
  simp only [charListLt]
  by_cases h1 : a0.toNat < b0.toNat
  · simp [h1]
  · by_cases h2 : b0.toNat < a0.toNat
    · have h3 : ¬ a0.toNat = b0.toNat := by omega
      simp [h1, h2, h3]
    · have h3 : a0.toNat = b0.toNat := by omega
      simp [h1, h2, h3]

theorem charListLt_irrefl (l : List Char) : charListLt l l = false := by
  induction l with
  | nil => rfl
  | cons a as ih =>
    simp only [charListLt, lt_irrefl, if_false]
    exact ih

theorem charListLt_trans :
    ∀ (a b c : List Char), charListLt a b = true → charListLt b c = true →
      charListLt a c = true := by
  intro a
  induction a with
  | nil =>
    intro b c _ hbc
    cases c with
    | nil =>
      rw [charListLt_nil_right] at hbc
      exact Bool.noConfusion hbc
    | cons c0 cs => rfl
  | cons a0 as ih =>
    intro b c hab hbc
    cases b with
    | nil =>
      rw [charListLt_nil_right] at hab
      exact Bool.noConfusion hab
    | cons b0 bs =>
      cases c with
      | nil =>
        rw [charListLt_nil_right] at hbc
        exact Bool.noConfusion hbc
      | cons c0 cs =>
        rw [charListLt_cons_iff] at hab hbc ⊢
        rcases hab with h1 | ⟨h1, h1'⟩ <;> rcases hbc with h2 | ⟨h2, h2'⟩
        · exact Or.inl (by omega)
        · exact Or.inl (by omega)
        · exact Or.inl (by omega)
        · exact Or.inr ⟨by omega, ih bs cs h1' h2'⟩

theorem charListLt_negtrans :
    ∀ (a b c : List Char), charListLt a b = false → charListLt b c = false →
      charListLt a c = false := by
  intro a
  induction a with
  | nil =>
    intro b c hab hbc
    cases c with
    | nil => rfl
    | cons c0 cs =>
      cases b with
      | nil => exact absurd hbc (by simp [charListLt])
      | cons b0 bs => exact absurd hab (by simp [charListLt])
  | cons a0 as ih =>
    intro b c hab hbc
    cases c with
    | nil => exact charListLt_nil_right _
    | cons c0 cs =>
      cases b with
      | nil => exact absurd hbc (by simp [charListLt])
      | cons b0 bs =>
        have hab' : ¬ (a0.toNat < b0.toNat ∨
            (a0.toNat = b0.toNat ∧ charListLt as bs = true)) := by
          rw [← charListLt_cons_iff]
          simp [hab]
        have hbc' : ¬ (b0.toNat < c0.toNat ∨
            (b0.toNat = c0.toNat ∧ charListLt bs cs = true)) := by
          rw [← charListLt_cons_iff]
          simp [hbc]
        push_neg at hab' hbc'
        obtain ⟨hab1, hab2⟩ := hab'
        obtain ⟨hbc1, hbc2⟩ := hbc'
        rw [← Bool.not_eq_true, charListLt_cons_iff]
        push_neg
        constructor
        · omega
        · intro hac
          have he1 : a0.toNat = b0.toNat := by omega
          have he2 : b0.toNat = c0.toNat := by omega
          have h1 : charListLt as bs = false := by simpa using hab2 he1
          have h2 : charListLt bs cs = false := by simpa using hbc2 he2
          simp [ih bs cs h1 h2]

theorem strLt_irrefl (s : String) : strLt s s = false := charListLt_irrefl s.data

theorem strLt_trans {a b c : String} (h1 : strLt a b = true) (h2 : strLt b c = true) :
    strLt a c = true := charListLt_trans a.data b.data c.data h1 h2

theorem strLt_negtrans {a b c : String} (h1 : strLt a b = false)
    (h2 : strLt b c = false) : strLt a c = false :=
  charListLt_negtrans a.data b.data c.data h1 h2

theorem scoreLt_irrefl (a : Nat × Nat × String) : ¬ scoreLt a a := by
  rcases a with ⟨x, y, s⟩
  rintro (h | ⟨-, h | ⟨-, h⟩⟩)
  · exact lt_irrefl _ h
  · exact lt_irrefl _ h
  · rw [strLt_irrefl] at h
    exact Bool.noConfusion h

theorem scoreLt_trans {a b c : Nat × Nat × String}
    (hab : scoreLt a b) (hbc : scoreLt b c) : scoreLt a c := by
  rcases a with ⟨x1, y1, s1⟩; rcases b with ⟨x2, y2, s2⟩; rcases c with ⟨x3, y3, s3⟩
  rcases hab with h1 | ⟨e1, h1 | ⟨e1', h1⟩⟩ <;>
    rcases hbc with h2 | ⟨e2, h2 | ⟨e2', h2⟩⟩ <;>
    simp only [scoreLt] at *
  · exact Or.inl (lt_trans h1 h2)
  · exact Or.inl (e2 ▸ h1)
  · exact Or.inl (e2 ▸ h1)
  · exact Or.inl (e1 ▸ h2)
  · exact Or.inr ⟨e1.trans e2, Or.inl (lt_trans h1 h2)⟩
  · exact Or.inr ⟨e1.trans e2, Or.inl (e2' ▸ h1)⟩
  · exact Or.inl (e1 ▸ h2)
  · exact Or.inr ⟨e1.trans e2, Or.inl (e1' ▸ h2)⟩
  · exact Or.inr ⟨e1.trans e2, Or.inr ⟨e1'.trans e2', strLt_trans h1 h2⟩⟩

theorem scoreLt_negtrans {a b c : Nat × Nat × String}
    (hab : ¬ scoreLt a b) (hbc : ¬ scoreLt b c) : ¬ scoreLt a c := by
  rcases a with ⟨x1, y1, s1⟩; rcases b with ⟨x2, y2, s2⟩; rcases c with ⟨x3, y3, s3⟩
  simp only [scoreLt, not_or, not_and_or, not_lt] at *
  obtain ⟨hx1, hrest1⟩ := hab
  obtain ⟨hx2, hrest2⟩ := hbc
  refine ⟨le_trans hx2 hx1, ?_⟩
  by_cases hx13 : x1 = x3
  · have hx12 : x1 = x2 := le_antisymm (hx13 ▸ hx2) hx1
    have hx23 : x2 = x3 := hx12 ▸ hx13
    rcases hrest1 with h | ⟨hy1, hrst1⟩
    · exact absurd hx12 h
    rcases hrest2 with h' | ⟨hy2, hrst2⟩
    · exact absurd hx23 h'
    refine Or.inr ⟨le_trans hy2 hy1, ?_⟩
    by_cases hy13 : y1 = y3
    · have hy12 : y1 = y2 := le_antisymm (hy13 ▸ hy2) hy1
      have hy23 : y2 = y3 := hy12 ▸ hy13
      rcases hrst1 with h'' | h''
      · exact absurd hy12 h''
      rcases hrst2 with h3 | h3
      · exact absurd hy23 h3
      · have f1 : strLt s1 s2 = false := by simpa using h''
        have f2 : strLt s2 s3 = false := by simpa using h3
        have f3 := strLt_negtrans f1 f2
        exact Or.inr (by simp [f3])
    · exact Or.inl hy13
  · exact Or.inl hx13

/-! ## Helper lemmas: ticker suffix surgery -/

theorem endsWithCA_exists {t : String} (h : endsWithCA t = true) :
    ∃ p : List Char, t.data = p ++ ['-', 'C', 'A'] := by
  obtain ⟨p, hp⟩ := of_decide_eq_true h
  exact ⟨p, hp.symm⟩

theorem altUS_data {t : String} {p : List Char} (h : t.data = p ++ ['-', 'C', 'A']) :
    (altUS t).data = p ++ ['-', 'U', 'S'] := by
  have hl : t.data.length = p.length + 3 := by rw [h]; simp
  show t.data.take (t.data.length - 3) ++ ['-', 'U', 'S'] = p ++ ['-', 'U', 'S']
  rw [hl, Nat.add_sub_cancel, h, List.take_left]

theorem altUS_ne {t : String} (h : endsWithCA t = true) : altUS t ≠ t := by
  obtain ⟨p, hp⟩ := endsWithCA_exists h
  intro he
  have hd : (altUS t).data = t.data := congrArg String.data he
  rw [altUS_data hp, hp] at hd
  have := List.append_cancel_left hd
  simp at this

theorem altUS_inj {s t : String} (hs : endsWithCA s = true) (ht : endsWithCA t = true)
    (h : altUS s = altUS t) : s = t := by
  obtain ⟨p, hp⟩ := endsWithCA_exists hs
  obtain ⟨q, hq⟩ := endsWithCA_exists ht
  have hd := congrArg String.data h
  rw [altUS_data hp, altUS_data hq] at hd
  have hpq : p = q := List.append_cancel_right hd
  apply String.ext
  rw [hp, hq, hpq]

theorem vmLookup_cons (k v x : String) (m : List (String × String)) :
    vmLookup ((k, v) :: m) x = if k = x then some v else vmLookup m x := by
  by_cases h : k = x <;> simp [vmLookup, List.find?_cons, h]

theorem mem_expandGuard {x y : String} {l : List String} (h : x ∈ l) :
    x ∈ (if y ∈ l then l else l ++ [y]) := by
  by_cases hy : y ∈ l <;> simp [hy, h]

theorem nodup_expandGuard {y : String} {l : List String} (h : l.Nodup) :
    (if y ∈ l then l else l ++ [y]).Nodup := by
  by_cases hy : y ∈ l <;> simp [hy, List.nodup_append, h]

theorem mem_expandGuard_self {y : String} {l : List String} :
    y ∈ (if y ∈ l then l else l ++ [y]) := by
  by_cases hy : y ∈ l <;> simp [hy]

/-! ## Helper lemmas: the expansion invariant -/

theorem expandStep_inv (all : List String)
    (H : ∀ t ∈ all, endsWithCA t = true → altUS t ∉ all)
    (seen : List String) (hseen : ∀ t ∈ seen, t ∈ all)
    (tk : String) (htk : tk ∈ all)
    (acc : List String × List (String × String)) (hI : ExpandInv seen acc) :
    ExpandInv (seen ++ [tk]) (expandStep acc tk) := by
  obtain ⟨hSelf, hAlt, hNd⟩ := hI
  by_cases hCA : endsWithCA tk = true
  · have hstep : expandStep acc tk =
        (if altUS tk ∈ (if tk ∈ acc.1 then acc.1 else acc.1 ++ [tk]) then
           (if tk ∈ acc.1 then acc.1 else acc.1 ++ [tk])
         else (if tk ∈ acc.1 then acc.1 else acc.1 ++ [tk]) ++ [altUS tk],
         (altUS tk, tk) :: (tk, tk) :: acc.2) := by
      simp only [expandStep, hCA, if_true]
    have hne : altUS tk ≠ tk := altUS_ne hCA
    have hnotall : altUS tk ∉ all := H tk htk hCA
    rw [hstep]
    refine ⟨?_, ?_, ?_⟩
    · intro t ht
      rcases List.mem_append.mp ht with ht | ht
      · have htall : t ∈ all := hseen t ht
        rw [vmLookup_cons, if_neg (fun (he : altUS tk = t) => hnotall (he ▸ htall))]
        rw [vmLookup_cons]
        by_cases he : tk = t
        · rw [if_pos he, he]
        · rw [if_neg he]; exact hSelf t ht
      · simp only [List.mem_singleton] at ht
        subst ht
        rw [vmLookup_cons, if_neg hne, vmLookup_cons, if_pos rfl]
    · intro t ht hCAt
      rcases List.mem_append.mp ht with ht | ht
      · obtain ⟨hmem, hlook⟩ := hAlt t ht hCAt
        constructor
        · exact mem_expandGuard (mem_expandGuard hmem)
        · rw [vmLookup_cons]
          by_cases he : altUS tk = altUS t
          · rw [if_pos he]
            have : tk = t := altUS_inj hCA hCAt he
            rw [this]
          · rw [if_neg he, vmLookup_cons,
              if_neg (fun (h2 : tk = altUS t) => (H t (hseen t ht) hCAt) (h2 ▸ htk))]
            exact hlook
      · simp only [List.mem_singleton] at ht
        subst ht
        constructor
        · exact mem_expandGuard_self
        · rw [vmLookup_cons, if_pos rfl]
    · exact nodup_expandGuard (nodup_expandGuard hNd)
  · have hstep : expandStep acc tk =
        (if tk ∈ acc.1 then acc.1 else acc.1 ++ [tk], (tk, tk) :: acc.2) := by
      simp only [expandStep, hCA, if_false]
      rw [if_neg (by simp [hCA])]
    rw [hstep]
    refine ⟨?_, ?_, ?_⟩
    · intro t ht
      rcases List.mem_append.mp ht with ht | ht
      · rw [vmLookup_cons]
        by_cases he : tk = t
        · rw [if_pos he, he]
        · rw [if_neg he]; exact hSelf t ht
      · simp only [List.mem_singleton] at ht
        subst ht
        rw [vmLookup_cons, if_pos rfl]
    · intro t ht hCAt
      rcases List.mem_append.mp ht with ht | ht
      · obtain ⟨hmem, hlook⟩ := hAlt t ht hCAt
        refine ⟨mem_expandGuard hmem, ?_⟩
        rw [vmLookup_cons,
          if_neg (fun (h2 : tk = altUS t) => (H t (hseen t ht) hCAt) (h2 ▸ htk))]
        exact hlook
      · simp only [List.mem_singleton] at ht
        subst ht
        exact absurd hCAt hCA
    · exact nodup_expandGuard hNd

theorem expand_go (all : List String)
    (H : ∀ t ∈ all, endsWithCA t = true → altUS t ∉ all) :
    ∀ (rest seen : List String), (∀ t ∈ rest, t ∈ all) → (∀ t ∈ seen, t ∈ all) →
    ∀ acc, ExpandInv seen acc → ExpandInv (seen ++ rest) (rest.foldl expandStep acc) := by
  intro rest
  induction rest with
  | nil => intro seen _ _ acc hI; simpa using hI
  | cons tk rest ih =>
    intro seen hrest hseen acc hI
    have htk : tk ∈ all := hrest tk (List.mem_cons_self tk rest)
    have h1 : ExpandInv (seen ++ [tk]) (expandStep acc tk) :=
      expandStep_inv all H seen hseen tk htk acc hI
    have h2 := ih (seen ++ [tk])
      (fun t ht => hrest t (List.mem_cons_of_mem _ ht))
      (fun t ht => by
        rcases List.mem_append.mp ht with h | h
        · exact hseen t h
        · simp only [List.mem_singleton] at h
          exact h ▸ htk)
      (expandStep acc tk) h1
    simpa [List.append_assoc] using h2

/-- Claim C3 (amended): for every input list in which no synthesized `-US`
alternate of a `-CA` identifier is itself an input identifier,
`expand_canadian_tickers` satisfies the variant expansion invariant: every
`-CA` identifier has its unique `-US` alternate in the (duplicate-free)
expanded list with the variant map sending it back to the `-CA`
identifier, every input identifier maps to itself, and the map is
single-valued. -/
theorem variant_expansion_invariant (tickers : List String)
    (H : ∀ t ∈ tickers, endsWithCA t = true → altUS t ∉ tickers) :
    (∀ t ∈ tickers, vmLookup (expand_canadian_tickers tickers).2 t = some t) ∧
    (∀ t ∈ tickers, endsWithCA t = true →
      altUS t ∈ (expand_canadian_tickers tickers).1 ∧
      vmLookup (expand_canadian_tickers tickers).2 (altUS t) = some t) ∧
    (expand_canadian_tickers tickers).1.Nodup ∧
    (∀ a c c', vmLookup (expand_canadian_tickers tickers).2 a = some c →
      vmLookup (expand_canadian_tickers tickers).2 a = some c' → c = c') := by
  have h := expand_go tickers H tickers [] (fun t ht => ht) (by simp) ([], [])
    ⟨by simp, by simp, List.nodup_nil⟩
  simp only [List.nil_append] at h
  exact ⟨h.1, h.2.1, h.2.2,
    fun a c c' h1 h2 => Option.some.inj ((h1.symm.trans h2))⟩

/-- Claim C3 witness: the docstring example `["BMO-CA", "JPM-US"]` — the
alternate `BMO-US` is in the expansion and maps back to `BMO-CA`, both
inputs map to themselves, and the expansion is exactly the documented
one. -/
theorem variant_expansion_invariant_witness :
    vmLookup (expand_canadian_tickers ["BMO-CA", "JPM-US"]).2 "BMO-CA" = some "BMO-CA" ∧
    vmLookup (expand_canadian_tickers ["BMO-CA", "JPM-US"]).2 "JPM-US" = some "JPM-US" ∧
    altUS "BMO-CA" ∈ (expand_canadian_tickers ["BMO-CA", "JPM-US"]).1 ∧
    vmLookup (expand_canadian_tickers ["BMO-CA", "JPM-US"]).2 (altUS "BMO-CA") =
      some "BMO-CA" ∧
    (expand_canadian_tickers ["BMO-CA", "JPM-US"]).1.Nodup := by
  have h := variant_expansion_invariant ["BMO-CA", "JPM-US"] (by decide)
  refine ⟨h.1 "BMO-CA" (by decide), h.1 "JPM-US" (by decide), ?_, ?_, h.2.2.1⟩
  · exact (h.2.1 "BMO-CA" (by decide) (by decide)).1
  · exact (h.2.1 "BMO-CA" (by decide) (by decide)).2

/-- Claim C3 counterexample: for the input list `["BMO-CA", "BMO-US"]` the
claimed invariant fails — the `-US` alternate of `BMO-CA` ends up mapping
to itself, not back to `BMO-CA`, because the later input `BMO-US`
overwrites the alternate binding. -/
theorem variant_expansion_counterexample :
    altUS "BMO-CA" = "BMO-US" ∧
    vmLookup (expand_canadian_tickers ["BMO-CA", "BMO-US"]).2 "BMO-US" =
      some "BMO-US" ∧
    ¬ vmLookup (expand_canadian_tickers ["BMO-CA", "BMO-US"]).2 "BMO-US" =
      some "BMO-CA" := by decide

/-! ## Claim C1: the variant merge scenario -/

/-- Claim C1 counterexample: on the spec's own scenario input, the record
that survives `merge_variant_events` does not carry the `BMO-US` record's
webcast URL — so the survivor's content is not that of the `BMO-US`
record. -/
theorem merge_scenario_us_content_refuted :
    (merge_variant_events [bmoCA, bmoUS] vmapBMO).map (fun e => e.webcast_link) ≠
      [bmoUS.webcast_link] := by decide

/-- Claim C1 (amended): on the scenario input, `merge_variant_events`
returns exactly one record for the group, and it is the `BMO-CA` record's
content — the canonical-source preference outranks completeness, so the
survivor keeps identifier `BMO-CA` but lacks the webcast URL that only the
`BMO-US` record carried. -/
theorem merge_scenario_keeps_canonical_record :
    merge_variant_events [bmoCA, bmoUS] vmapBMO = [bmoCA] ∧
    bmoCA.ticker = "BMO-CA" ∧ bmoCA.webcast_link = "" ∧
    bmoUS.webcast_link ≠ "" := by decide

/-! ## Helper lemmas: the merge score order and the best-of-group pick -/

theorem mergeLt_irrefl (p : RawEvent × String) :
    decide (scoreLt (mergeScore p) (mergeScore p)) = false :=
  decide_eq_false (scoreLt_irrefl _)

theorem mergeLt_trans (a b c : RawEvent × String)
    (h1 : decide (scoreLt (mergeScore a) (mergeScore b)) = true)
    (h2 : decide (scoreLt (mergeScore b) (mergeScore c)) = true) :
    decide (scoreLt (mergeScore a) (mergeScore c)) = true :=
  decide_eq_true (scoreLt_trans (of_decide_eq_true h1) (of_decide_eq_true h2))

theorem mergeLt_negtrans (a b c : RawEvent × String)
    (h1 : decide (scoreLt (mergeScore a) (mergeScore b)) = false)
    (h2 : decide (scoreLt (mergeScore b) (mergeScore c)) = false) :
    decide (scoreLt (mergeScore a) (mergeScore c)) = false :=
  decide_eq_false (scoreLt_negtrans (of_decide_eq_false h1) (of_decide_eq_false h2))

theorem pickBestMerge_mem {g : List (RawEvent × String)} {w : RawEvent × String}
    (h : pickBestMerge g = some w) : w ∈ g :=
  foldPick_mem _ g w h

theorem pickBestMerge_isSome {g : List (RawEvent × String)} (h : g ≠ []) :
    (pickBestMerge g).isSome :=
  foldPick_isSome _ g h

theorem pickBestMerge_max {g : List (RawEvent × String)} {w : RawEvent × String}
    (h : pickBestMerge g = some w) :
    ∀ p ∈ g, ¬ scoreLt (mergeScore w) (mergeScore p) := by
  intro p hp
  exact of_decide_eq_false
    (foldPick_max _ mergeLt_irrefl mergeLt_trans mergeLt_negtrans g w h p hp)

theorem strictlyDominates_scoreLt {p q : RawEvent × String}
    (h : strictlyDominates p q) : scoreLt (mergeScore q) (mergeScore p) := by
  obtain ⟨hc, hnc, -, -⟩ := h
  left
  simp only [mergeScore, if_pos hc, if_neg hnc]
  exact Nat.zero_lt_one

theorem mem_mergeGroup_key {events : List RawEvent}
    {variant_map : List (String × String)} {k : String × String × String × String}
    {p : RawEvent × String} (h : p ∈ mergeGroup events variant_map k) :
    mergeKey p.1 = k := by
  have := (List.mem_filter.mp h).2
  exact of_decide_eq_true this

/-! ## Claim C5: merge completeness -/

/-- Claim C5: for every duplicate-key group formed by
`merge_variant_events`, exactly one record survives (the output contains
exactly one record with that group key), and the survivor is never
strictly dominated by another member of its group. -/
theorem merge_completeness (events : List RawEvent)
    (variant_map : List (String × String))
    (k : String × String × String × String)
    (hk : k ∈ mergeGroupKeys events variant_map) :
    ∃ w, pickBestMerge (mergeGroup events variant_map k) = some w ∧
      w ∈ mergeGroup events variant_map k ∧
      (merge_variant_events events variant_map).filter
        (fun e => decide (mergeKey e = k)) = [w.1] ∧
      ∀ p ∈ mergeGroup events variant_map k, ¬ strictlyDominates p w := by
  obtain ⟨a, ha, hak⟩ := (mem_firstSeenKeys _ _ _).mp hk
  have hag : a ∈ mergeGroup events variant_map k :=
    List.mem_filter.mpr ⟨ha, decide_eq_true hak⟩
  have hgne : mergeGroup events variant_map k ≠ [] :=
    fun h => by rw [h] at hag; exact absurd hag (by simp)
  obtain ⟨w, hw⟩ := Option.isSome_iff_exists.mp (pickBestMerge_isSome hgne)
  have hwmem : w ∈ mergeGroup events variant_map k := pickBestMerge_mem hw
  have hene : events ≠ [] := by
    intro h
    subst h
    have : mergeRemapped [] variant_map = [] := rfl
    rw [this] at ha
    exact absurd ha (by simp)
  refine ⟨w, hw, hwmem, ?_, ?_⟩
  · have hgrp := filterMap_groups_filter
      (fun k' => pickBestMerge (mergeGroup events variant_map k'))
      (fun pr => decide (mergeKey pr.1 = k)) k
      (mergeGroupKeys events variant_map)
      (nodup_firstSeenKeys _ _)
      (by
        intro k' hk' w' hw'
        have hw'mem : w' ∈ mergeGroup events variant_map k' := pickBestMerge_mem hw'
        have := mem_mergeGroup_key hw'mem
        simp [this])
    rw [if_pos hk] at hgrp
    simp only [] at hgrp
    have hmerge : merge_variant_events events variant_map =
        ((mergeGroupKeys events variant_map).filterMap
          (fun k => pickBestMerge (mergeGroup events variant_map k))).map (·.1) := by
      rw [merge_variant_events, if_neg (by simpa using hene)]
    rw [hmerge, List.filter_map]
    rw [show ((fun e => decide (mergeKey e = k)) ∘ fun x : RawEvent × String => x.1) =
      (fun pr : RawEvent × String => decide (mergeKey pr.1 = k)) from rfl]
    rw [hgrp, hw]
    rfl
  · intro p hp hdom
    exact pickBestMerge_max hw p hp (strictlyDominates_scoreLt hdom)

/-- Claim C5 witness: the two-record `BMO` group — the survivor is the
`BMO-CA`-sourced record and the `BMO-US`-sourced member does not strictly
dominate it. -/
theorem merge_completeness_witness :
    (merge_variant_events [bmoCA, bmoUS] vmapBMO).filter
      (fun e => decide (mergeKey e = ("BMO-CA", "Earnings", "2024", "Q1"))) = [bmoCA] ∧
    ¬ strictlyDominates (remapEvent vmapBMO bmoUS) (bmoCA, "BMO-CA") := by
  obtain ⟨w, hw, hmem, hfilter, hdom⟩ :=
    merge_completeness [bmoCA, bmoUS] vmapBMO ("BMO-CA", "Earnings", "2024", "Q1")
      (by decide)
  have hpick : pickBestMerge
      (mergeGroup [bmoCA, bmoUS] vmapBMO ("BMO-CA", "Earnings", "2024", "Q1")) =
      some (bmoCA, "BMO-CA") := by decide
  have hwid : w = (bmoCA, "BMO-CA") := Option.some.inj (hw.symm.trans hpick)
  subst hwid
  exact ⟨hfilter, hdom (remapEvent vmapBMO bmoUS) (by decide)⟩

/-! ## Helper lemmas: the same-instant resolver -/

theorem pickMinPrio_mem {priority : List String} {g : List ProcEvent} {w : ProcEvent}
    (h : pickMinPrio priority g = some w) : w ∈ g :=
  foldPick_mem _ g w h

theorem pickMinPrio_isSome {priority : List String} {g : List ProcEvent} (h : g ≠ []) :
    (pickMinPrio priority g).isSome :=
  foldPick_isSome _ g h

theorem pickMinPrio_min {priority : List String} {g : List ProcEvent} {w : ProcEvent}
    (h : pickMinPrio priority g = some w) :
    ∀ e ∈ g, prioIndex priority w.event_type ≤ prioIndex priority e.event_type := by
  intro e he
  rw [pickMinPrio] at h
  have hmax := foldPick_max
    (fun b e => decide (prioIndex priority e.event_type < prioIndex priority b.event_type))
    (by intro a; simp)
    (by
      intro a b c h1 h2
      simp only [decide_eq_true_eq] at h1 h2 ⊢
      exact lt_trans h2 h1)
    (by
      intro a b c h1 h2
      simp only [decide_eq_false_iff_not, not_lt] at h1 h2 ⊢
      exact le_trans h1 h2)
    g w h e he
  simp only [decide_eq_false_iff_not, not_lt] at hmax
  exact hmax

theorem mem_dtGroup {priority : List String} {events : List ProcEvent}
    {k : String × String} {p : ProcEvent} (h : p ∈ dtGroup priority events k) :
    p.event_type ∈ priority ∧ dtKey p = k := by
  obtain ⟨h1, h2⟩ := List.mem_filter.mp h
  exact ⟨of_decide_eq_true (List.mem_filter.mp h1).2, of_decide_eq_true h2⟩

/-! ## Claim C7: the same-instant resolver policy -/

/-- Claim C7: with an empty priority list `dedupe_same_datetime` is the
identity; records whose category is not on the list pass through
untouched; and for every `(ticker, instant)` group of listed records,
exactly one record survives, a member of the group whose category index on
the priority list is minimal. -/
theorem same_instant_resolver_policy (priority : List String)
    (events : List ProcEvent) (t u : String) :
    dedupe_same_datetime [] events = events ∧
    (dedupe_same_datetime priority events).filter
        (fun e => decide (e.event_type ∉ priority)) =
      events.filter (fun e => decide (e.event_type ∉ priority)) ∧
    ((t, u) ∈ dtKeys priority events →
      ∃ w, pickMinPrio priority (dtGroup priority events (t, u)) = some w ∧
        w ∈ dtGroup priority events (t, u) ∧
        (dedupe_same_datetime priority events).filter
          (fun e => decide (e.event_type ∈ priority ∧ e.ticker = t ∧
            e.event_date_time_utc = u)) = [w] ∧
        ∀ e ∈ dtGroup priority events (t, u),
          prioIndex priority w.event_type ≤ prioIndex priority e.event_type) := by
  refine ⟨rfl, ?_, ?_⟩
  · by_cases hp : priority.isEmpty
    · rw [dedupe_same_datetime, if_pos hp]
    · rw [dedupe_same_datetime, if_neg hp, List.filter_append]
      have hwin : ((dtKeys priority events).filterMap
          (fun k => pickMinPrio priority (dtGroup priority events k))).filter
            (fun e => decide (e.event_type ∉ priority)) = [] := by
        rw [List.filter_eq_nil_iff]
        intro w hw
        obtain ⟨k, hk, hpick⟩ := List.mem_filterMap.mp hw
        have hmem := pickMinPrio_mem hpick
        have := (mem_dtGroup hmem).1
        simp [this]
      rw [hwin, List.nil_append, List.filter_filter]
      congr 1
      funext a
      exact Bool.and_self _
  · intro hk
    obtain ⟨a, ha, hak⟩ := (mem_firstSeenKeys _ _ _).mp hk
    have hag : a ∈ dtGroup priority events (t, u) :=
      List.mem_filter.mpr ⟨ha, decide_eq_true hak⟩
    have hgne : dtGroup priority events (t, u) ≠ [] :=
      fun h => by rw [h] at hag; exact absurd hag (by simp)
    obtain ⟨w, hw⟩ := Option.isSome_iff_exists.mp (pickMinPrio_isSome hgne)
    have hpne : ¬ priority.isEmpty := by
      intro hp
      have : priority = [] := by
        cases priority
        · rfl
        · exact absurd hp (by simp)
      subst this
      have := (mem_dtGroup hag).1
      exact absurd this (by simp)
    refine ⟨w, hw, pickMinPrio_mem hw, ?_, pickMinPrio_min hw⟩
    rw [dedupe_same_datetime, if_neg hpne, List.filter_append]
    have hoth : (events.filter (fun e => decide (e.event_type ∉ priority))).filter
        (fun e => decide (e.event_type ∈ priority ∧ e.ticker = t ∧
          e.event_date_time_utc = u)) = [] := by
      rw [List.filter_filter, List.filter_eq_nil_iff]
      intro a ha
      simp only [Bool.and_eq_true, decide_eq_true_eq]
      rintro ⟨⟨hin, -⟩, hnin⟩
      exact absurd hin hnin
    have hgrp := filterMap_groups_filter
      (fun k' => pickMinPrio priority (dtGroup priority events k'))
      (fun e => decide (e.event_type ∈ priority ∧ e.ticker = t ∧
        e.event_date_time_utc = u)) (t, u)
      (dtKeys priority events)
      (nodup_firstSeenKeys _ _)
      (by
        intro k' hk' w' hw'
        obtain ⟨hin, hkey⟩ := mem_dtGroup (pickMinPrio_mem hw')
        rcases k' with ⟨t', u'⟩
        have h1 : w'.ticker = t' := congrArg Prod.fst hkey
        have h2 : w'.event_date_time_utc = u' := congrArg Prod.snd hkey
        simp [hin, h1, h2, Prod.ext_iff])
    rw [if_pos hk] at hgrp
    simp only [] at hgrp
    rw [hgrp, hoth, hw, List.append_nil]
    rfl

/-- Claim C7 witness: the spec scenario — three records with the same
identifier and instant, categories Earnings, ConfirmedEarningsRelease and
ProjectedEarningsRelease under the priority list of those three types:
only the Earnings record survives. -/
theorem same_instant_resolver_witness :
    (dedupe_same_datetime siPriority siEvents).filter
      (fun e => decide (e.event_type ∈ siPriority ∧ e.ticker = "BMO-CA" ∧
        e.event_date_time_utc = "2024-05-29T11:00:00+00:00")) = [siEarningsRec] ∧
    prioIndex siPriority siEarningsRec.event_type ≤
      prioIndex siPriority siConfirmedRec.event_type ∧
    dedupe_same_datetime siPriority siEvents = [siEarningsRec] := by
  obtain ⟨w, hpick, hmem, hfilter, hmin⟩ :=
    (same_instant_resolver_policy siPriority siEvents "BMO-CA"
      "2024-05-29T11:00:00+00:00").2.2 (by decide)
  have hpick2 : pickMinPrio siPriority
      (dtGroup siPriority siEvents ("BMO-CA", "2024-05-29T11:00:00+00:00")) =
      some siEarningsRec := by decide
  have hwid : w = siEarningsRec := Option.some.inj (hpick.symm.trans hpick2)
  subst hwid
  exact ⟨hfilter, hmin siConfirmedRec (by decide), by decide⟩

/-! ## Helper lemmas: the fiscal-period resolver -/

theorem pick_by_last_modified_mem {g : List ProcEvent} {w : ProcEvent}
    (h : pick_by_last_modified g = some w) : w ∈ g :=
  foldPick_mem _ g w h

theorem pick_by_last_modified_isSome {g : List ProcEvent} (h : g ≠ []) :
    (pick_by_last_modified g).isSome :=
  foldPick_isSome _ g h

theorem pick_by_last_modified_max {g : List ProcEvent} {w : ProcEvent}
    (h : pick_by_last_modified g = some w) :
    ∀ e ∈ g, strLe e.last_modified_date w.last_modified_date = true := by
  intro e he
  rw [pick_by_last_modified] at h
  have hmax := foldPick_max
    (fun b e => strLt b.last_modified_date e.last_modified_date)
    (by intro a; exact strLt_irrefl _)
    (by intro a b c h1 h2; exact strLt_trans h1 h2)
    (by intro a b c h1 h2; exact strLt_negtrans h1 h2)
    g w h e he
  simp [strLe, hmax]

theorem pickByPeerComparison_mem {g : List ProcEvent} {fy fp : String}
    {idx : List ((String × String) × List (String × Nat))} {w : ProcEvent}
    (h : pickByPeerComparison g fy fp idx = some w) : w ∈ g := by
  simp only [pickByPeerComparison] at h
  split at h
  · exact absurd h (by simp)
  · split at h
    · exact absurd h (by simp)
    · exact List.mem_of_find?_eq_some h

theorem pickEarningsWinner_mem {earnings : List ProcEvent}
    {k : String × String × String} {g : List ProcEvent} {w : ProcEvent}
    (h : pickEarningsWinner earnings k g = some w) : w ∈ g := by
  match g with
  | [] => exact absurd h (by simp [pickEarningsWinner])
  | [e] =>
    simp only [pickEarningsWinner, Option.some.injEq] at h
    simp [← h]
  | e1 :: e2 :: tl =>
    simp only [pickEarningsWinner] at h
    split at h
    · exact pick_by_last_modified_mem h
    · split at h
      · rename_i w' heq
        have hw' : w' ∈ e1 :: e2 :: tl := pickByPeerComparison_mem heq
        exact (Option.some.inj h) ▸ hw'
      · exact pick_by_last_modified_mem h

theorem pickEarningsWinner_isSome {earnings : List ProcEvent}
    {k : String × String × String} {g : List ProcEvent} (h : g ≠ []) :
    (pickEarningsWinner earnings k g).isSome := by
  match g with
  | [] => exact absurd rfl h
  | [e] => simp [pickEarningsWinner]
  | e1 :: e2 :: tl =>
    simp only [pickEarningsWinner]
    split
    · exact pick_by_last_modified_isSome (by simp)
    · split
      · simp
      · exact pick_by_last_modified_isSome (by simp)

theorem mem_earnGroup {events : List ProcEvent} {k : String × String × String}
    {e : ProcEvent} (h : e ∈ earnGroup events k) :
    e ∈ events ∧ e.event_type = "Earnings" ∧
    e.fiscal_year ≠ "" ∧ e.fiscal_period ≠ "" ∧ earnKey e = k := by
  obtain ⟨h1, h2⟩ := List.mem_filter.mp h
  obtain ⟨h3, h4⟩ := List.mem_filter.mp h1
  obtain ⟨h5, h6⟩ := List.mem_filter.mp h3
  have h4' := of_decide_eq_true h4
  exact ⟨h5, of_decide_eq_true h6, h4'.1, h4'.2, of_decide_eq_true h2⟩

theorem dedupe_rest_filter_nil (events : List ProcEvent) (t fy fp : String)
    (hfy : fy ≠ "") (_hfp : fp ≠ "") :
    ((events.filter (fun e => decide (e.event_type ≠ "Earnings")) ++
      (earningsOf events).filter
        (fun e => decide (e.fiscal_year = "" ∨ e.fiscal_period = ""))).filter
      (fun e => decide (e.event_type = "Earnings" ∧ earnKey e = (t, fy, fp)))) = [] := by
  rw [List.filter_append]
  have h1 : (events.filter (fun e => decide (e.event_type ≠ "Earnings"))).filter
      (fun e => decide (e.event_type = "Earnings" ∧ earnKey e = (t, fy, fp))) = [] := by
    rw [List.filter_eq_nil_iff]
    intro a ha
    have h2 := of_decide_eq_true (List.mem_filter.mp ha).2
    simp only [decide_eq_true_eq, not_and]
    intro h3
    exact absurd h3 h2
  have h2 : ((earningsOf events).filter
      (fun e => decide (e.fiscal_year = "" ∨ e.fiscal_period = ""))).filter
      (fun e => decide (e.event_type = "Earnings" ∧ earnKey e = (t, fy, fp))) = [] := by
    rw [List.filter_eq_nil_iff]
    intro a ha
    have h3 := of_decide_eq_true (List.mem_filter.mp ha).2
    simp only [decide_eq_true_eq, not_and]
    intro _ h4
    have h5 : a.fiscal_year = fy := congrArg (·.2.1) h4
    rcases h3 with h3 | h3
    · exact hfy (h5 ▸ h3)
    · have h6 : a.fiscal_period = fp := congrArg (·.2.2) h4
      exact _hfp (h6 ▸ h3)
  rw [h1, h2]
  rfl

theorem dedupe_earnings_filter_key (events : List ProcEvent)
    (k : String × String × String) (hk : k ∈ earnKeys events) :
    (dedupe_earnings_by_fiscal_period events).filter
      (fun e => decide (e.event_type = "Earnings" ∧ earnKey e = k)) =
    (pickEarningsWinner (earningsOf events) k (earnGroup events k)).toList := by
  obtain ⟨a, ha, hak⟩ := (mem_firstSeenKeys _ _ _).mp hk
  have hag : a ∈ earnGroup events k := List.mem_filter.mpr ⟨ha, decide_eq_true hak⟩
  obtain ⟨haev, haty, hafy, hafp, -⟩ := mem_earnGroup hag
  have hane : ¬ (earningsOf events).isEmpty := by
    have : a ∈ earningsOf events :=
      List.mem_filter.mpr ⟨haev, decide_eq_true haty⟩
    intro hemp
    rw [List.isEmpty_iff] at hemp
    rw [hemp] at this
    exact absurd this (by simp)
  rw [dedupe_earnings_by_fiscal_period, if_neg hane, List.filter_append]
  rcases hkk : k with ⟨kt, kfy, kfp⟩
  have hkfy : kfy ≠ "" := by
    have := congrArg (·.2.1) hak
    simp only [hkk] at this
    rw [earnKey] at this
    simp only at this
    exact this ▸ hafy
  have hkfp : kfp ≠ "" := by
    have := congrArg (·.2.2) hak
    simp only [hkk] at this
    rw [earnKey] at this
    simp only at this
    exact this ▸ hafp
  have hrest := dedupe_rest_filter_nil events kt kfy kfp hkfy hkfp
  rw [hrest]
  have hgrp := filterMap_groups_filter
    (fun k' => pickEarningsWinner (earningsOf events) k' (earnGroup events k'))
    (fun e => decide (e.event_type = "Earnings" ∧ earnKey e = (kt, kfy, kfp)))
    (kt, kfy, kfp)
    (earnKeys events)
    (nodup_firstSeenKeys _ _)
    (by
      intro k' hk' w' hw'
      obtain ⟨-, hty', -, -, hkey'⟩ := mem_earnGroup (pickEarningsWinner_mem hw')
      simp [hty', hkey'])
  rw [hkk] at hk
  rw [if_pos hk] at hgrp
  simp only [] at hgrp
  rw [hgrp, List.append_nil]

theorem dedupe_earnings_passthrough {events : List ProcEvent} {e : ProcEvent}
    (he : e ∈ events)
    (hcond : e.event_type ≠ "Earnings" ∨ e.fiscal_year = "" ∨ e.fiscal_period = "") :
    e ∈ dedupe_earnings_by_fiscal_period events := by
  rw [dedupe_earnings_by_fiscal_period]
  by_cases hemp : (earningsOf events).isEmpty
  · rw [if_pos hemp]; exact he
  · rw [if_neg hemp]
    by_cases hty : e.event_type = "Earnings"
    · have hfz : e.fiscal_year = "" ∨ e.fiscal_period = "" := by
        rcases hcond with h | h | h
        · exact absurd hty h
        · exact Or.inl h
        · exact Or.inr h
      apply List.mem_append.mpr; right
      apply List.mem_append.mpr; right
      exact List.mem_filter.mpr
        ⟨List.mem_filter.mpr ⟨he, decide_eq_true hty⟩, decide_eq_true hfz⟩
    · apply List.mem_append.mpr; right
      apply List.mem_append.mpr; left
      exact List.mem_filter.mpr ⟨he, decide_eq_true hty⟩

/-! ## Claim C4: fiscal-period uniqueness -/

/-- Claim C4: after `dedupe_earnings_by_fiscal_period`, for every
`(identifier, fiscal year, fiscal period)` with both fiscal fields
non-empty, exactly one Earnings record with that key remains when the
input had any, and none otherwise; Earnings records missing a fiscal field
and records of other categories pass through. -/
theorem fiscal_period_uniqueness (events : List ProcEvent) (t fy fp : String)
    (hfy : fy ≠ "") (hfp : fp ≠ "") :
    ((dedupe_earnings_by_fiscal_period events).countP
        (fun e => decide (e.event_type = "Earnings" ∧ earnKey e = (t, fy, fp))) =
      if events.countP
          (fun e => decide (e.event_type = "Earnings" ∧ earnKey e = (t, fy, fp))) = 0
      then 0 else 1) ∧
    ∀ e ∈ events,
      (e.event_type ≠ "Earnings" ∨ e.fiscal_year = "" ∨ e.fiscal_period = "") →
      e ∈ dedupe_earnings_by_fiscal_period events := by
  constructor
  · by_cases hk : (t, fy, fp) ∈ earnKeys events
    · rw [List.countP_eq_length_filter, dedupe_earnings_filter_key events _ hk]
      obtain ⟨a, ha, hak⟩ := (mem_firstSeenKeys _ _ _).mp hk
      have hag : a ∈ earnGroup events (t, fy, fp) :=
        List.mem_filter.mpr ⟨ha, decide_eq_true hak⟩
      have hgne : earnGroup events (t, fy, fp) ≠ [] :=
        fun h => by rw [h] at hag; exact absurd hag (by simp)
      obtain ⟨w, hw⟩ := Option.isSome_iff_exists.mp
        (@pickEarningsWinner_isSome (earningsOf events) (t, fy, fp) _ hgne)
      obtain ⟨haev, haty, -, -, -⟩ := mem_earnGroup hag
      have hcnt : events.countP
          (fun e => decide (e.event_type = "Earnings" ∧ earnKey e = (t, fy, fp))) ≠ 0 := by
        have : 0 < events.countP
            (fun e => decide (e.event_type = "Earnings" ∧ earnKey e = (t, fy, fp))) :=
          List.countP_pos_iff.mpr ⟨a, haev, by simp [haty, hak]⟩
        omega
      rw [if_neg hcnt, hw]
      rfl
    · have hcnt : events.countP
          (fun e => decide (e.event_type = "Earnings" ∧ earnKey e = (t, fy, fp))) = 0 := by
        rw [List.countP_eq_zero]
        intro a ha
        simp only [decide_eq_true_eq, not_and]
        intro hty hkey
        apply hk
        apply (mem_firstSeenKeys _ _ _).mpr
        refine ⟨a, ?_, hkey⟩
        apply List.mem_filter.mpr
        refine ⟨List.mem_filter.mpr ⟨ha, decide_eq_true hty⟩, ?_⟩
        have h1 : a.fiscal_year = fy := congrArg (·.2.1) hkey
        have h2 : a.fiscal_period = fp := congrArg (·.2.2) hkey
        simp [h1, h2, hfy, hfp]
      rw [hcnt, if_pos rfl]
      rw [dedupe_earnings_by_fiscal_period]
      by_cases hemp : (earningsOf events).isEmpty
      · rw [if_pos hemp]; exact hcnt
      · rw [if_neg hemp]
        rw [List.countP_append]
        have h2 : ((events.filter (fun e => decide (e.event_type ≠ "Earnings")) ++
            (earningsOf events).filter
              (fun e => decide (e.fiscal_year = "" ∨ e.fiscal_period = ""))).countP
            (fun e => decide (e.event_type = "Earnings" ∧ earnKey e = (t, fy, fp)))) = 0 := by
          rw [List.countP_eq_length_filter, dedupe_rest_filter_nil events t fy fp hfy hfp]
          rfl
        have h1 : (((earnKeys events).filterMap
            (fun k => pickEarningsWinner (earningsOf events) k (earnGroup events k))).countP
            (fun e => decide (e.event_type = "Earnings" ∧ earnKey e = (t, fy, fp)))) = 0 := by
          rw [List.countP_eq_zero]
          intro w hw
          obtain ⟨k', hk', hpick⟩ := List.mem_filterMap.mp hw
          obtain ⟨-, -, -, -, hkey⟩ := mem_earnGroup (pickEarningsWinner_mem hpick)
          simp only [decide_eq_true_eq, not_and]
          intro _hty hkeyw
          exact hk ((hkey.symm.trans hkeyw) ▸ hk')
        rw [h1, h2]
  · intro e he hcond
    exact dedupe_earnings_passthrough he hcond

/-- Claim C4 witness: two duplicate Q1 Earnings records and one Dividend
record — exactly one Earnings record with the Q1 key survives and the
Dividend record passes through. -/
theorem fiscal_period_uniqueness_witness :
    ((dedupe_earnings_by_fiscal_period fpEvents).countP
        (fun e => decide (e.event_type = "Earnings" ∧
          earnKey e = ("BMO-CA", "2024", "Q1"))) = 1) ∧
    fpOtherRec ∈ dedupe_earnings_by_fiscal_period fpEvents := by
  have h := fiscal_period_uniqueness fpEvents "BMO-CA" "2024" "Q1"
    (by decide) (by decide)
  constructor
  · rw [h.1]
    decide
  · exact h.2 fpOtherRec (by decide) (Or.inl (by decide))

/-! ## Claim C8: the single-month fallback rule -/

/-- Claim C8: for every fiscal-period duplicate group spanning at most one
distinct calendar month (or no usable dates), the resolver's winner is
`_pick_by_last_modified` of the group — independently of any peer data, so
peer comparison is never invoked — and that winner is a member of the
group with the lexically greatest last-modified string (an empty string
sorts lowest in this order). -/
theorem single_month_fallback (events : List ProcEvent) (k : String × String × String)
    (hk : k ∈ earnKeys events)
    (hm : (distinctMonths (earnGroup events k)).length ≤ 1) :
    (∀ peers : List ProcEvent,
      pickEarningsWinner peers k (earnGroup events k) =
        pick_by_last_modified (earnGroup events k)) ∧
    (dedupe_earnings_by_fiscal_period events).filter
        (fun e => decide (e.event_type = "Earnings" ∧ earnKey e = k)) =
      (pick_by_last_modified (earnGroup events k)).toList ∧
    ∀ w, pick_by_last_modified (earnGroup events k) = some w →
      w ∈ earnGroup events k ∧
      ∀ e ∈ earnGroup events k,
        strLe e.last_modified_date w.last_modified_date = true := by
  have hpeer : ∀ peers : List ProcEvent,
      pickEarningsWinner peers k (earnGroup events k) =
        pick_by_last_modified (earnGroup events k) := by
    intro peers
    rcases hg : earnGroup events k with _ | ⟨e1, _ | ⟨e2, tl⟩⟩
    · simp [pickEarningsWinner, pick_by_last_modified, foldPick]
    · simp [pickEarningsWinner, pick_by_last_modified, foldPick]
    · rw [hg] at hm
      simp only [pickEarningsWinner]
      rw [if_pos hm]
  refine ⟨hpeer, ?_, ?_⟩
  · rw [dedupe_earnings_filter_key events k hk, hpeer]
  · intro w hw
    exact ⟨pick_by_last_modified_mem hw, pick_by_last_modified_max hw⟩

/-- Claim C8 witness: two duplicate Q1 records both dated in `2024-05` —
the group spans a single month, the winner equals
`_pick_by_last_modified` whatever the peer set (here the empty one), and
it is the record with the later last-modified string. -/
theorem single_month_fallback_witness :
    pickEarningsWinner [] ("BMO-CA", "2024", "Q1")
        (earnGroup fpEvents ("BMO-CA", "2024", "Q1")) =
      pick_by_last_modified (earnGroup fpEvents ("BMO-CA", "2024", "Q1")) ∧
    (dedupe_earnings_by_fiscal_period fpEvents).filter
        (fun e => decide (e.event_type = "Earnings" ∧
          earnKey e = ("BMO-CA", "2024", "Q1"))) =
      (pick_by_last_modified (earnGroup fpEvents ("BMO-CA", "2024", "Q1"))).toList ∧
    pick_by_last_modified (earnGroup fpEvents ("BMO-CA", "2024", "Q1")) = some fpRecB ∧
    strLe fpRecA.last_modified_date fpRecB.last_modified_date = true := by
  have h := single_month_fallback fpEvents ("BMO-CA", "2024", "Q1")
    (by decide) (by decide)
  refine ⟨h.1 [], h.2.1, by decide, ?_⟩
  exact (h.2.2 fpRecB (by decide)).2 fpRecA (by decide)

/-! ## Helper lemmas: counters and the type filter -/

theorem countOf_bumpCount_self (m : List (String × Nat)) (k : String) :
    countOf (bumpCount m k) k = countOf m k + 1 := by
  induction m with
  | nil => simp [bumpCount, countOf]
  | cons p rest ih =>
    rcases p with ⟨k', n⟩
    by_cases h : k' = k
    · subst h
      simp [bumpCount, countOf]
      omega
    · simp only [bumpCount, if_neg h]
      simp only [countOf, List.filter_cons, decide_eq_true_eq, h, if_neg h]
      simp only [countOf] at ih
      simp [h, ih]

theorem countOf_bumpCount_ne (m : List (String × Nat)) (k k' : String)
    (h : ¬ k = k') : countOf (bumpCount m k) k' = countOf m k' := by
  induction m with
  | nil => simp [bumpCount, countOf, h]
  | cons p rest ih =>
    rcases p with ⟨k0, n⟩
    by_cases h0 : k0 = k
    · subst h0
      simp [bumpCount, countOf, h]
    · simp only [bumpCount, if_neg h0]
      simp only [countOf, List.filter_cons] at ih ⊢
      by_cases h1 : k0 = k'
      · simp [h1, ih]
      · simp [h1, ih]

theorem totalCount_bumpCount (m : List (String × Nat)) (k : String) :
    totalCount (bumpCount m k) = totalCount m + 1 := by
  induction m with
  | nil => simp [bumpCount, totalCount]
  | cons p rest ih =>
    rcases p with ⟨k0, n⟩
    by_cases h0 : k0 = k
    · subst h0
      simp [bumpCount, totalCount]
      omega
    · simp only [bumpCount, if_neg h0, totalCount, List.map_cons, List.sum_cons]
      simp only [totalCount] at ih
      omega

theorem mem_allowed_not_excluded {ty : String} (h : ty ∈ get_allowed_types) :
    ty ∉ EXCLUDED_EVENT_TYPES :=
  of_decide_eq_true (List.mem_filter.mp h).2

theorem filter_partition_three (events : List ProcEvent) :
    (events.filter (fun e => decide (e.event_type ∈ get_allowed_types))).length +
      events.countP (fun e => decide (e.event_type ∈ EXCLUDED_EVENT_TYPES)) +
      events.countP (fun e => decide (e.event_type ∉ EXCLUDED_EVENT_TYPES ∧
        e.event_type ∉ get_allowed_types)) = events.length := by
  induction events with
  | nil => rfl
  | cons e l ih =>
    simp only [List.filter_cons, List.countP_cons, List.length_cons]
    by_cases h1 : e.event_type ∈ EXCLUDED_EVENT_TYPES
    · have h2 : e.event_type ∉ get_allowed_types :=
        fun hm => (mem_allowed_not_excluded hm) h1
      simp [h1, h2] at ih ⊢
      omega
    · by_cases h2 : e.event_type ∈ get_allowed_types
      · simp [h1, h2] at ih ⊢
        omega
      · simp [h1, h2] at ih ⊢
        omega

theorem filter_events_go :
    ∀ (events : List ProcEvent)
      (acc : List ProcEvent × List (String × Nat) × List (String × Nat)),
      (events.foldl filterStep acc).1 =
        acc.1 ++ events.filter (fun e => decide (e.event_type ∈ get_allowed_types)) ∧
      (∀ ty, countOf (events.foldl filterStep acc).2.1 ty =
        countOf acc.2.1 ty +
          (if ty ∈ EXCLUDED_EVENT_TYPES then
            events.countP (fun e => decide (e.event_type = ty)) else 0)) ∧
      (∀ ty, countOf (events.foldl filterStep acc).2.2 ty =
        countOf acc.2.2 ty +
          (if ty ∉ EXCLUDED_EVENT_TYPES ∧ ty ∉ get_allowed_types then
            events.countP (fun e => decide (e.event_type = ty)) else 0)) ∧
      totalCount (events.foldl filterStep acc).2.1 =
        totalCount acc.2.1 +
          events.countP (fun e => decide (e.event_type ∈ EXCLUDED_EVENT_TYPES)) ∧
      totalCount (events.foldl filterStep acc).2.2 =
        totalCount acc.2.2 +
          events.countP (fun e => decide (e.event_type ∉ EXCLUDED_EVENT_TYPES ∧
            e.event_type ∉ get_allowed_types)) := by
  intro events
  induction events with
  | nil =>
    intro acc
    refine ⟨by simp, fun ty => by simp, fun ty => by simp, by simp, by simp⟩
  | cons e l ih =>
    intro acc
    obtain ⟨A, B, C, D, E⟩ := ih (filterStep acc e)
    by_cases h1 : e.event_type ∈ EXCLUDED_EVENT_TYPES
    · have hna : e.event_type ∉ get_allowed_types :=
        fun hm => (mem_allowed_not_excluded hm) h1
      have hstep : filterStep acc e =
          (acc.1, bumpCount acc.2.1 e.event_type, acc.2.2) := by
        simp only [filterStep, if_pos h1]
      refine ⟨?_, ?_, ?_, ?_, ?_⟩
      · rw [List.foldl_cons, A, hstep, List.filter_cons]
        simp [hna]
      · intro ty
        rw [List.foldl_cons, B ty, hstep]
        by_cases hty : ty = e.event_type
        · subst hty
          rw [countOf_bumpCount_self, if_pos h1, if_pos h1, List.countP_cons]
          simp
          omega
        · rw [countOf_bumpCount_ne _ _ _ (fun h => hty h.symm), List.countP_cons]
          have : decide (e.event_type = ty) = false := by
            simp
            exact fun h => hty h.symm
          rw [this]
          simp
      · intro ty
        rw [List.foldl_cons, C ty, hstep]
        by_cases hc : ty ∉ EXCLUDED_EVENT_TYPES ∧ ty ∉ get_allowed_types
        · rw [if_pos hc, if_pos hc, List.countP_cons]
          have hne : ty ≠ e.event_type := fun h => hc.1 (h ▸ h1)
          have : decide (e.event_type = ty) = false := by
            simp
            exact fun h => hne h.symm
          rw [this]
          simp
        · rw [if_neg hc, if_neg hc]
      · rw [List.foldl_cons, D, hstep, totalCount_bumpCount, List.countP_cons]
        simp [h1]
        omega
      · rw [List.foldl_cons, E, hstep, List.countP_cons]
        have : decide (e.event_type ∉ EXCLUDED_EVENT_TYPES ∧
            e.event_type ∉ get_allowed_types) = false := by
          simp [h1]
        rw [this]
        simp
    · by_cases h2 : e.event_type ∈ get_allowed_types
      · have hstep : filterStep acc e = (acc.1 ++ [e], acc.2.1, acc.2.2) := by
          simp only [filterStep, if_neg h1, if_pos h2]
        refine ⟨?_, ?_, ?_, ?_, ?_⟩
        · rw [List.foldl_cons, A, hstep, List.filter_cons]
          simp [h2]
        · intro ty
          rw [List.foldl_cons, B ty, hstep]
          by_cases hc : ty ∈ EXCLUDED_EVENT_TYPES
          · rw [if_pos hc, if_pos hc, List.countP_cons]
            have hne : ty ≠ e.event_type := fun h => h1 (h ▸ hc)
            have : decide (e.event_type = ty) = false := by
              simp
              exact fun h => hne h.symm
            rw [this]
            simp
          · rw [if_neg hc, if_neg hc]
        · intro ty
          rw [List.foldl_cons, C ty, hstep]
          by_cases hc : ty ∉ EXCLUDED_EVENT_TYPES ∧ ty ∉ get_allowed_types
          · rw [if_pos hc, if_pos hc, List.countP_cons]
            have hne : ty ≠ e.event_type := fun h => hc.2 (h ▸ h2)
            have : decide (e.event_type = ty) = false := by
              simp
              exact fun h => hne h.symm
            rw [this]
            simp
          · rw [if_neg hc, if_neg hc]
        · rw [List.foldl_cons, D, hstep, List.countP_cons]
          simp [h1]
        · rw [List.foldl_cons, E, hstep, List.countP_cons]
          have : decide (e.event_type ∉ EXCLUDED_EVENT_TYPES ∧
              e.event_type ∉ get_allowed_types) = false := by
            simp [h2]
          rw [this]
          simp
      · have hstep : filterStep acc e =
            (acc.1, acc.2.1, bumpCount acc.2.2 e.event_type) := by
          simp only [filterStep, if_neg h1, if_neg h2]
        refine ⟨?_, ?_, ?_, ?_, ?_⟩
        · rw [List.foldl_cons, A, hstep, List.filter_cons]
          simp [h2]
        · intro ty
          rw [List.foldl_cons, B ty, hstep]
          by_cases hc : ty ∈ EXCLUDED_EVENT_TYPES
          · rw [if_pos hc, if_pos hc, List.countP_cons]
            have hne : ty ≠ e.event_type := fun h => h1 (h ▸ hc)
            have : decide (e.event_type = ty) = false := by
              simp
              exact fun h => hne h.symm
            rw [this]
            simp
          · rw [if_neg hc, if_neg hc]
        · intro ty
          rw [List.foldl_cons, C ty, hstep]
          by_cases hty : ty = e.event_type
          · subst hty
            have hc : e.event_type ∉ EXCLUDED_EVENT_TYPES ∧
                e.event_type ∉ get_allowed_types := ⟨h1, h2⟩
            rw [countOf_bumpCount_self, if_pos hc, if_pos hc, List.countP_cons]
            simp
            omega
          · rw [countOf_bumpCount_ne _ _ _ (fun h => hty h.symm), List.countP_cons]
            have : decide (e.event_type = ty) = false := by
              simp
              exact fun h => hty h.symm
            rw [this]
            simp
        · rw [List.foldl_cons, D, hstep, List.countP_cons]
          simp [h1]
        · rw [List.foldl_cons, E, hstep, totalCount_bumpCount, List.countP_cons]
          have : decide (e.event_type ∉ EXCLUDED_EVENT_TYPES ∧
              e.event_type ∉ get_allowed_types) = true := by
            simp [h1, h2]
          rw [this]
          simp
          omega

/-! ## Claim C9: the type filter policy -/

/-- Claim C9: `filter_events` keeps exactly the records whose category is
in the computed allow set; every dropped record is counted in exactly one
of the two tallies — the explicit deny-list tally holds, per category,
precisely the deny-listed input records, the unknown tally precisely the
records whose category is neither denied nor allowed — and the kept and
dropped counts add up to the input length, so no record is lost or aborts
the filter. -/
theorem type_filter_policy (events : List ProcEvent) :
    (filter_events events).1 =
      events.filter (fun e => decide (e.event_type ∈ get_allowed_types)) ∧
    (∀ ty, countOf (filter_events events).2.1 ty =
      if ty ∈ EXCLUDED_EVENT_TYPES then
        events.countP (fun e => decide (e.event_type = ty)) else 0) ∧
    (∀ ty, countOf (filter_events events).2.2 ty =
      if ty ∉ EXCLUDED_EVENT_TYPES ∧ ty ∉ get_allowed_types then
        events.countP (fun e => decide (e.event_type = ty)) else 0) ∧
    (filter_events events).1.length +
      totalCount (filter_events events).2.1 +
      totalCount (filter_events events).2.2 = events.length := by
  obtain ⟨A, B, C, D, E⟩ := filter_events_go events ([], [], [])
  rw [filter_events]
  refine ⟨by simpa using A, ?_, ?_, ?_⟩
  · intro ty
    have := B ty
    simpa [countOf] using this
  · intro ty
    have := C ty
    simpa [countOf] using this
  · rw [A, D, E]
    simp only [List.nil_append, List.length_append]
    have := filter_partition_three events
    simp only [totalCount, List.map_nil, List.sum_nil, List.length_nil]
    omega

/-! ## Claim C6: temporal normalizer error handling -/

/-- Claim C6: `convert_timezone` returns four empty strings whenever the
timestamp string is empty or unparseable. The embedding is a total
function, which is the model-level form of "a parse failure is recovered
locally and never raised to the caller". -/
theorem convert_timezone_error_recovery (s : String) (u : Bool)
    (h : s = "" ∨ parseTimestamp s = none) :
    convert_timezone s u = ("", "", "", "") := by
  rcases h with h | h
  · subst h
    rfl
  · rw [convert_timezone]
    by_cases hs : s = ""
    · rw [if_pos hs]
    · rw [if_neg hs, h]

/-- Claim C6 witness: a concrete unparseable timestamp yields the four
empty strings. -/
theorem convert_timezone_error_recovery_witness :
    parseTimestamp "not-a-timestamp" = none ∧
    convert_timezone "not-a-timestamp" true = ("", "", "", "") :=
  ⟨by decide,
   convert_timezone_error_recovery "not-a-timestamp" true (Or.inr (by decide))⟩

/-! ## Claim C2: unconfirmed-time anchoring -/

/-- Claim C2 (amended): for every timestamp string that expresses the
instant in UTC (a `Z` suffix or no offset) and parses to wall-clock
midnight of calendar date D, `convert_timezone` with the unconfirmed flag
set returns local date D — the UTC calendar date, not shifted to the
previous day — a time label `00:00 <zone-abbr>`, and a fabricated local
midnight of D carrying the local zone's offset. (For a timestamp carrying
a non-zero offset the code anchors to the string's own wall-clock date,
which can differ from the UTC calendar date; see the counterexample.) -/
theorem unconfirmed_time_anchoring (s : String) (dt : DateTime) (tz : Option Int)
    (hp : parseTimestamp s = some (dt, tz)) (hz : tz.getD 0 = 0)
    (_hmid : dt.hour = 0 ∧ dt.minute = 0 ∧ dt.second = 0) :
    ∃ abbr : String, (abbr = "EST" ∨ abbr = "EDT") ∧
      convert_timezone s true =
        (isoformat dt 0,
         isoformat ⟨dt.year, dt.month, dt.day, 0, 0, 0⟩
           (if abbr = "EDT" then (-240 : Int) else -300),
         formatDate dt, "00:00 " ++ abbr) := by
  have hs : s ≠ "" := by
    intro h
    subst h
    rw [show parseTimestamp "" = none from rfl] at hp
    exact Option.noConfusion hp
  rw [convert_timezone, if_neg hs, hp]
  cases hdst : torontoMidnightDST dt.year dt.month dt.day
  · refine ⟨"EST", Or.inl rfl, ?_⟩
    simp [hdst, hz]
  · refine ⟨"EDT", Or.inr rfl, ?_⟩
    simp [hdst, hz]

/-- Claim C2 witness: the spec's example `2024-03-15T00:00:00Z` — the
local date stays `2024-03-15` and the label renders as
`00:00 <zone-abbr>` with a fabricated local midnight. -/
theorem unconfirmed_time_anchoring_witness :
    parseTimestamp "2024-03-15T00:00:00Z" =
      some (⟨2024, 3, 15, 0, 0, 0⟩, some 0) ∧
    convert_timezone "2024-03-15T00:00:00Z" true =
      ("2024-03-15T00:00:00+00:00", "2024-03-15T00:00:00-04:00",
       "2024-03-15", "00:00 EDT") ∧
    (∃ abbr : String, (abbr = "EST" ∨ abbr = "EDT") ∧
      convert_timezone "2024-03-15T00:00:00Z" true =
        (isoformat ⟨2024, 3, 15, 0, 0, 0⟩ 0,
         isoformat ⟨2024, 3, 15, 0, 0, 0⟩
           (if abbr = "EDT" then (-240 : Int) else -300),
         formatDate ⟨2024, 3, 15, 0, 0, 0⟩, "00:00 " ++ abbr)) := by
  refine ⟨by decide, by decide, ?_⟩
  exact unconfirmed_time_anchoring "2024-03-15T00:00:00Z" ⟨2024, 3, 15, 0, 0, 0⟩
    (some 0) (by decide) (by decide) ⟨rfl, rfl, rfl⟩

/-- Claim C2 counterexample: the timestamp `2024-03-14T20:00:00-04:00`
parses to the instant midnight UTC of `2024-03-15` (as the second
conjunct computes with the same wall-minus-offset arithmetic the
converter uses), yet the unconfirmed conversion anchors the local date to
the string's wall-clock date `2024-03-14`, not the UTC calendar date —
so the claim's quantification over every string parsing to midnight UTC
fails. -/
theorem unconfirmed_time_offset_counterexample :
    parseTimestamp "2024-03-14T20:00:00-04:00" =
      some (⟨2024, 3, 14, 20, 0, 0⟩, some (-240)) ∧
    dtFromSecs (dtToSecs ⟨2024, 3, 14, 20, 0, 0⟩ - (-240) * 60) =
      ⟨2024, 3, 15, 0, 0, 0⟩ ∧
    (convert_timezone "2024-03-14T20:00:00-04:00" true).2.2.1 = "2024-03-14" ∧
    "2024-03-14" ≠ "2024-03-15" := by decide

/-! ## Claim C10: the zero-fiscal-year edge case -/

/-- Claim C10: `transform_event` converts a raw fiscal year of `"0"` or
`"0.0"` to the empty string, so the record is treated as lacking fiscal
data: its consolidation key (`get_dedup_key`) is the calendar-date key
rather than the fiscal-period key, and the Fiscal-Period Resolver passes
the record through unmodified. -/
theorem zero_fiscal_year_passthrough (raw : RawEvent) (raw2 : RawStage2Fields)
    (insts : List (String × InstInfo)) (ts tgt : String)
    (hz : raw.fiscal_year = "0" ∨ raw.fiscal_year = "0.0") :
    (transform_event raw raw2 insts ts).fiscal_year = "" ∧
    get_dedup_key (transform_event raw raw2 insts ts) tgt =
      (tgt, (transform_event raw raw2 insts ts).ticker, "date",
       (transform_event raw raw2 insts ts).event_date) ∧
    ∀ evs : List ProcEvent, transform_event raw raw2 insts ts ∈ evs →
      (transform_event raw raw2 insts ts).event_type = "Earnings" →
      transform_event raw raw2 insts ts ∈ dedupe_earnings_by_fiscal_period evs := by
  have hfy : (transform_event raw raw2 insts ts).fiscal_year = "" := by
    show normalize_fiscal_year raw.fiscal_year = ""
    rw [normalize_fiscal_year, if_pos hz]
  refine ⟨hfy, ?_, ?_⟩
  · rw [get_dedup_key, if_neg]
    intro hcontra
    exact hcontra.1 hfy
  · intro evs hmem _hty
    exact dedupe_earnings_passthrough hmem (Or.inr (Or.inl hfy))

/-- Claim C10 witness: the concrete scenario record with fiscal year
`"0"` — the transformed record has an empty fiscal year, a calendar-date
consolidation key, and survives the Fiscal-Period Resolver unmodified. -/
theorem zero_fiscal_year_passthrough_witness :
    (transform_event rawZeroFY rawZeroFY2 [] "2025-01-01T00:00:00+00:00").fiscal_year
      = "" ∧
    get_dedup_key (transform_event rawZeroFY rawZeroFY2 [] "2025-01-01T00:00:00+00:00")
      "Earnings" = ("Earnings", "BMO-CA", "date", "") ∧
    transform_event rawZeroFY rawZeroFY2 [] "2025-01-01T00:00:00+00:00" ∈
      dedupe_earnings_by_fiscal_period
        [transform_event rawZeroFY rawZeroFY2 [] "2025-01-01T00:00:00+00:00"] := by
  have h := zero_fiscal_year_passthrough rawZeroFY rawZeroFY2 []
    "2025-01-01T00:00:00+00:00" "Earnings" (Or.inl rfl)
  refine ⟨h.1, h.2.1.trans (by decide), ?_⟩
  exact h.2.2 _ (by decide) (by decide)

end Aegis
